import Mathlib

/-!
Verification of the datasheet-analyze repository: a shallow embedding of the
persistent store (database.py), the JSON serialization used for metadata, the
tag/checklist extraction heuristics and the per-descriptor status machine of
the analysis pipeline (main.py), with theorems settling the specification
claims about them.

Modelling conventions:
- Python values that can flow through `json.dumps` / `str` / dict keys are
  modelled by `PyVal` (floats are not modelled; no claim involves them).
- SQLite tables are lists of rows in rowid order; `CURRENT_TIMESTAMP` is an
  explicit `Nat` argument threaded into each write.
- Exceptions are `Except`; a rolled-back transaction returns the original
  store paired with the error.
-/

namespace DatasheetAnalyze

/-- Model of the Python values handled by the repository: the JSON-compatible
fragment of Python (`None`, `bool`, `int`, `str`, `list`, `dict`).  Floats are
outside the model.  Dict entries are kept in insertion order, as in Python. -/
inductive PyVal where
  | none : PyVal
  | bool : Bool → PyVal
  | int : Int → PyVal
  | str : String → PyVal
  | list : List PyVal → PyVal
  | dict : List (PyVal × PyVal) → PyVal

/-- Python hashability for values that can appear as dict keys: lists and
dicts are unhashable (`TypeError: unhashable type`). -/
def pyHashable : PyVal → Bool
  | PyVal.list _ => false
  | PyVal.dict _ => false
  | _ => true

/-- Equality test used for dict keys.  Only scalar (hashable) values are ever
compared in the modelled code paths. -/
def pyScalarEq : PyVal → PyVal → Bool
  | PyVal.none, PyVal.none => true
  | PyVal.bool a, PyVal.bool b => a == b
  | PyVal.int a, PyVal.int b => a == b
  | PyVal.str a, PyVal.str b => a == b
  | _, _ => false

/-- Python dict assignment `m[k] = v`: replace in place if the key is present,
else append (insertion order preserved). -/
def dictSet (m : List (PyVal × PyVal)) (k v : PyVal) : List (PyVal × PyVal) :=
  if m.any (fun p => pyScalarEq p.1 k) then
    m.map (fun p => if pyScalarEq p.1 k then (p.1, v) else p)
  else m ++ [(k, v)]

/-- Lookup of a string key in a parsed JSON object (`tag['Name']`); keys
produced by `json.loads` are always strings. -/
def strKeyLookup (kvs : List (PyVal × PyVal)) (k : String) : Option PyVal :=
  (kvs.find? (fun p => match p.1 with
    | PyVal.str s => s == k
    | _ => false)).map (fun p => p.2)

/-! ## JSON serialization: model of `json.dumps` with default arguments -/

def hexDigitChar (d : Nat) : Char := Char.ofNat (if d < 10 then 48 + d else 87 + d)

def toHex4 (n : Nat) : List Char :=
  [hexDigitChar (n / 4096 % 16), hexDigitChar (n / 256 % 16),
   hexDigitChar (n / 16 % 16), hexDigitChar (n % 16)]

/-- One character of `json.dumps` output under the default `ensure_ascii=True`:
shorthand escapes for the common control characters, `\uXXXX` for the other
control characters and all non-ASCII characters, surrogate pairs above the
basic multilingual plane. -/
def escChar (c : Char) : List Char :=
  let n := c.toNat
  if c = '"' then ['\\', '"']
  else if c = '\\' then ['\\', '\\']
  else if n = 8 then ['\\', 'b']
  else if n = 9 then ['\\', 't']
  else if n = 10 then ['\\', 'n']
  else if n = 12 then ['\\', 'f']
  else if n = 13 then ['\\', 'r']
  else if n < 32 || 127 ≤ n then
    if n < 65536 then '\\' :: 'u' :: toHex4 n
    else ('\\' :: 'u' :: toHex4 (55296 + (n - 65536) / 1024)) ++
         ('\\' :: 'u' :: toHex4 (56320 + (n - 65536) % 1024))
  else [c]

def dumpStrChars (s : String) : List Char := '"' :: s.data.flatMap escChar ++ ['"']

def digitChar (d : Nat) : Char := Char.ofNat (48 + d)

/-- Decimal digits of a natural number, accumulator form; the fuel argument
keeps the recursion structural so that concrete values reduce in the kernel
(`fuel = n + 1` always suffices since `n / 10` shrinks every step). -/
def natCharsGo : Nat → Nat → List Char → List Char
  | 0, _, acc => acc
  | fuel + 1, n, acc =>
    if n < 10 then digitChar n :: acc
    else natCharsGo fuel (n / 10) (digitChar (n % 10) :: acc)

def natChars (n : Nat) : List Char := natCharsGo (n + 1) n []

def intChars (i : Int) : List Char :=
  if i < 0 then '-' :: natChars i.natAbs else natChars i.natAbs

mutual
/-- `json.dumps(value)` (default separators `", "` and `": "`), or a
`TypeError` (`Except.error`) when a dict key is not str/int/bool/None. -/
def dumpVal : PyVal → Except Unit (List Char)
  | PyVal.none => Except.ok "null".data
  | PyVal.bool b => Except.ok (if b then "true".data else "false".data)
  | PyVal.int i => Except.ok (intChars i)
  | PyVal.str s => Except.ok (dumpStrChars s)
  | PyVal.list xs => do
    let inner ← dumpList xs
    Except.ok ('[' :: inner ++ [']'])
  | PyVal.dict kvs => do
    let inner ← dumpPairs kvs
    Except.ok ('\x7b' :: inner ++ ['\x7d'])
def dumpList : List PyVal → Except Unit (List Char)
  | [] => Except.ok []
  | [x] => dumpVal x
  | x :: y :: xs => do
    let cx ← dumpVal x
    let rest ← dumpList (y :: xs)
    Except.ok (cx ++ ',' :: ' ' :: rest)
def dumpPairs : List (PyVal × PyVal) → Except Unit (List Char)
  | [] => Except.ok []
  | [(k, v)] => do
    let ck ← dumpKey k
    let cv ← dumpVal v
    Except.ok (ck ++ ':' :: ' ' :: cv)
  | (k, v) :: q :: kvs => do
    let ck ← dumpKey k
    let cv ← dumpVal v
    let rest ← dumpPairs (q :: kvs)
    Except.ok (ck ++ ':' :: ' ' :: cv ++ ',' :: ' ' :: rest)
/-- Python coerces str/int/bool/None dict keys to JSON string keys and raises
`TypeError` for any other key type (default `skipkeys=False`). -/
def dumpKey : PyVal → Except Unit (List Char)
  | PyVal.str s => Except.ok (dumpStrChars s)
  | PyVal.int i => Except.ok (dumpStrChars (String.mk (intChars i)))
  | PyVal.bool b => Except.ok (dumpStrChars (if b then "true" else "false"))
  | PyVal.none => Except.ok (dumpStrChars "null")
  | PyVal.list _ => Except.error ()
  | PyVal.dict _ => Except.error ()
end

/-- `json.dumps(value)` as a string. -/
def pyDumps (v : PyVal) : Except Unit String := (dumpVal v).map String.mk

/-! ## JSON parsing: model of `json.loads`

Faithful to CPython's `json` for the integer fragment: strict strings (raw
control characters rejected, the standard escapes and `\uXXXX` with surrogate
pairs accepted), `true`/`false`/`null`, objects with string keys (duplicate
keys: last one wins, first position kept), arrays, and integer numbers.
Deliberate model boundaries: float syntax (`.`, `e`, `NaN`, `Infinity`) is
rejected rather than parsed to a float, and a lone surrogate escape is
rejected rather than parsed to a lone-surrogate string (Lean strings cannot
hold one); no claim in scope exercises either. -/

def jsonWs (c : Char) : Bool := c = ' ' || c = '\t' || c = '\n' || c = '\r'

def skipWs : List Char → List Char
  | [] => []
  | c :: rest => if jsonWs c then skipWs rest else c :: rest

def hexVal (c : Char) : Option Nat :=
  let n := c.toNat
  if 48 ≤ n && n ≤ 57 then some (n - 48)
  else if 97 ≤ n && n ≤ 102 then some (n - 87)
  else if 65 ≤ n && n ≤ 70 then some (n - 55)
  else Option.none

def escUn (c : Char) : Option Char :=
  if c = '"' then some '"'
  else if c = '\\' then some '\\'
  else if c = '/' then some '/'
  else if c = 'b' then some (Char.ofNat 8)
  else if c = 'f' then some (Char.ofNat 12)
  else if c = 'n' then some '\n'
  else if c = 'r' then some '\r'
  else if c = 't' then some '\t'
  else Option.none

/-- One `\uXXXX` escape (with a possible surrogate-pair continuation),
given the input just after the `\u`: the decoded character and the remaining
input. -/
def parseUEscape (cs : List Char) : Option (Char × List Char) :=
  match cs with
  | h1 :: h2 :: h3 :: h4 :: rest3 =>
    match hexVal h1, hexVal h2, hexVal h3, hexVal h4 with
    | some a, some b, some cv, some d =>
      let n := a * 4096 + b * 256 + cv * 16 + d
      if 55296 ≤ n ∧ n ≤ 56319 then
        match rest3 with
        | b1 :: b2 :: g1 :: g2 :: g3 :: g4 :: rest4 =>
          if b1 = '\\' ∧ b2 = 'u' then
            match hexVal g1, hexVal g2, hexVal g3, hexVal g4 with
            | some a2, some bv2, some cv2, some d2 =>
              let m := a2 * 4096 + bv2 * 256 + cv2 * 16 + d2
              if 56320 ≤ m ∧ m ≤ 57343 then
                some (Char.ofNat (65536 + (n - 55296) * 1024 + (m - 56320)), rest4)
              else Option.none
            | _, _, _, _ => Option.none
          else Option.none
        | _ => Option.none
      else if 56320 ≤ n ∧ n ≤ 57343 then Option.none
      else some (Char.ofNat n, rest3)
    | _, _, _, _ => Option.none
  | _ => Option.none

/-- One string escape, given the input just after the backslash: the decoded
character and the remaining input. -/
def parseEsc (cs : List Char) : Option (Char × List Char) :=
  match cs with
  | [] => Option.none
  | e :: rest2 =>
    if e = 'u' then parseUEscape rest2
    else
      match escUn e with
      | some c2 => some (c2, rest2)
      | Option.none => Option.none

/-- Body of a JSON string after the opening quote: the decoded characters and
the input remaining after the closing quote.  The fuel keeps the recursion
structural; every step consumes at least one input character, so
`length + 1` fuel is always sufficient and the call sites pass that. -/
def parseStrBody : Nat → List Char → Option (List Char × List Char)
  | 0, _ => Option.none
  | fuel + 1, cs =>
    match cs with
    | [] => Option.none
    | c :: rest =>
      if c = '"' then some ([], rest)
      else if c = '\\' then
        match parseEsc rest with
        | some p => (parseStrBody fuel p.2).map (fun q => (p.1 :: q.1, q.2))
        | Option.none => Option.none
      else if c.toNat < 32 then Option.none
      else (parseStrBody fuel rest).map (fun q => (c :: q.1, q.2))

def splitDigits : List Char → List Char × List Char
  | [] => ([], [])
  | c :: rest =>
    if c.isDigit then
      let p := splitDigits rest
      (c :: p.1, p.2)
    else ([], c :: rest)

def digitsToNat (ds : List Char) : Nat := ds.foldl (fun a c => a * 10 + (c.toNat - 48)) 0

/-- True when the characters after an integer literal continue a float form,
which the model rejects (see the module comment above). -/
def floatGuard : List Char → Bool
  | [] => false
  | c :: _ => c = '.' || c = 'e' || c = 'E'

def parsePos : List Char → Option (Nat × List Char)
  | [] => Option.none
  | c :: rest =>
    if c = '0' then
      if floatGuard rest then Option.none else some (0, rest)
    else if c.isDigit then
      let p := splitDigits rest
      if floatGuard p.2 then Option.none else some (digitsToNat (c :: p.1), p.2)
    else Option.none

def parseNumber : List Char → Option (Int × List Char)
  | [] => Option.none
  | c :: rest =>
    if c = '-' then (parsePos rest).map (fun p => (-(Int.ofNat p.1), p.2))
    else (parsePos (c :: rest)).map (fun p => (Int.ofNat p.1, p.2))

/-- Python dict built from parsed key/value pairs: later duplicate keys
overwrite in place (first position kept), as in `dict(pairs)`. -/
def strSet (m : List (String × PyVal)) (k : String) (v : PyVal) : List (String × PyVal) :=
  if m.any (fun p => p.1 == k) then m.map (fun p => if p.1 == k then (k, v) else p)
  else m ++ [(k, v)]

def pairsToDict (ps : List (String × PyVal)) : List (String × PyVal) :=
  ps.foldl (fun m q => strSet m q.1 q.2) []

mutual
/-- JSON value parser; the fuel argument keeps recursion structural, every
recursive call decrements it. -/
def parseVal : Nat → List Char → Option (PyVal × List Char)
  | 0, _ => Option.none
  | fuel + 1, cs =>
    match skipWs cs with
    | [] => Option.none
    | c :: rest =>
      if c = '"' then
        (parseStrBody (rest.length + 1) rest).map
          (fun p => (PyVal.str (String.mk p.1), p.2))
      else if c = '\x7b' then
        (parseMembers fuel rest).map
          (fun p => (PyVal.dict ((pairsToDict p.1).map (fun q => (PyVal.str q.1, q.2))), p.2))
      else if c = '[' then
        (parseItems fuel rest).map (fun p => (PyVal.list p.1, p.2))
      else if c = 't' then
        match rest with
        | 'r' :: 'u' :: 'e' :: rest2 => some (PyVal.bool true, rest2)
        | _ => Option.none
      else if c = 'f' then
        match rest with
        | 'a' :: 'l' :: 's' :: 'e' :: rest2 => some (PyVal.bool false, rest2)
        | _ => Option.none
      else if c = 'n' then
        match rest with
        | 'u' :: 'l' :: 'l' :: rest2 => some (PyVal.none, rest2)
        | _ => Option.none
      else (parseNumber (c :: rest)).map (fun p => (PyVal.int p.1, p.2))
/-- Array items after the opening bracket. -/
def parseItems : Nat → List Char → Option (List PyVal × List Char)
  | 0, _ => Option.none
  | fuel + 1, cs =>
    match skipWs cs with
    | [] => Option.none
    | c :: rest =>
      if c = ']' then some ([], rest)
      else
        match parseVal fuel (c :: rest) with
        | some (v, rest2) =>
          (parseItemsTail fuel rest2).map (fun p => (v :: p.1, p.2))
        | Option.none => Option.none
/-- Array continuation: `, value` repeated, then the closing bracket. -/
def parseItemsTail : Nat → List Char → Option (List PyVal × List Char)
  | 0, _ => Option.none
  | fuel + 1, cs =>
    match skipWs cs with
    | [] => Option.none
    | c :: rest =>
      if c = ']' then some ([], rest)
      else if c = ',' then
        match parseVal fuel rest with
        | some (v, rest2) =>
          (parseItemsTail fuel rest2).map (fun p => (v :: p.1, p.2))
        | Option.none => Option.none
      else Option.none
/-- Object members after the opening brace. -/
def parseMembers : Nat → List Char → Option (List (String × PyVal) × List Char)
  | 0, _ => Option.none
  | fuel + 1, cs =>
    match skipWs cs with
    | [] => Option.none
    | c :: rest =>
      if c = '\x7d' then some ([], rest)
      else
        match parseMember fuel (c :: rest) with
        | some (k, v, rest2) =>
          (parseMembersTail fuel rest2).map (fun p => ((k, v) :: p.1, p.2))
        | Option.none => Option.none
/-- One `"key": value` member. -/
def parseMember : Nat → List Char → Option (String × PyVal × List Char)
  | 0, _ => Option.none
  | fuel + 1, cs =>
    match skipWs cs with
    | [] => Option.none
    | c :: rest =>
      if c = '"' then
        match parseStrBody (rest.length + 1) rest with
        | some (kcs, rest2) =>
          match skipWs rest2 with
          | [] => Option.none
          | c2 :: rest3 =>
            if c2 = ':' then (parseVal fuel rest3).map (fun p => (String.mk kcs, p.1, p.2))
            else Option.none
        | Option.none => Option.none
      else Option.none
/-- Object continuation: `, member` repeated, then the closing brace. -/
def parseMembersTail : Nat → List Char → Option (List (String × PyVal) × List Char)
  | 0, _ => Option.none
  | fuel + 1, cs =>
    match skipWs cs with
    | [] => Option.none
    | c :: rest =>
      if c = '\x7d' then some ([], rest)
      else if c = ',' then
        match parseMember fuel rest with
        | some (k, v, rest2) =>
          (parseMembersTail fuel rest2).map (fun p => ((k, v) :: p.1, p.2))
        | Option.none => Option.none
      else Option.none
end

/-- `json.loads(s)`: parse one value surrounded by optional whitespace,
rejecting trailing data.  The fuel `2 * length + 4` strictly dominates the
parser's fuel consumption, which decrements at most twice per consumed
character. -/
def pyLoads (s : String) : Option PyVal :=
  match parseVal (2 * s.length + 4) s.data with
  | some (v, rest) => if skipWs rest = [] then some v else Option.none
  | Option.none => Option.none

/-! ## Python `repr` / `str` on the modelled fragment -/

/-- One character of Python `repr` for a string.  Model boundary: the model
always single-quotes and always escapes a single quote, where Python switches
to double quotes when the string holds a single quote but no double quote;
no claim in scope inspects `repr` on such strings. -/
def reprEscChar (c : Char) : List Char :=
  let n := c.toNat
  if c = '\\' then ['\\', '\\']
  else if c = '\x27' then ['\\', '\x27']
  else if n = 9 then ['\\', 't']
  else if n = 10 then ['\\', 'n']
  else if n = 13 then ['\\', 'r']
  else if n < 32 || n = 127 then '\\' :: 'x' :: [hexDigitChar (n / 16 % 16), hexDigitChar (n % 16)]
  else [c]

mutual
/-- Python `repr(value)` on the modelled fragment. -/
def pyRepr : PyVal → List Char
  | PyVal.none => "None".data
  | PyVal.bool b => (if b then "True" else "False").data
  | PyVal.int i => intChars i
  | PyVal.str s => '\x27' :: s.data.flatMap reprEscChar ++ ['\x27']
  | PyVal.list xs => '[' :: pyReprList xs ++ [']']
  | PyVal.dict kvs => '\x7b' :: pyReprPairs kvs ++ ['\x7d']
def pyReprList : List PyVal → List Char
  | [] => []
  | [x] => pyRepr x
  | x :: y :: xs => pyRepr x ++ ',' :: ' ' :: pyReprList (y :: xs)
def pyReprPairs : List (PyVal × PyVal) → List Char
  | [] => []
  | [(k, v)] => pyRepr k ++ ':' :: ' ' :: pyRepr v
  | (k, v) :: q :: kvs => pyRepr k ++ ':' :: ' ' :: pyRepr v ++ ',' :: ' ' :: pyReprPairs (q :: kvs)
end

/-- Python `str(value)`: the identity on strings, `repr` otherwise (for the
scalar cases this is `"None"`, `"True"`, `"False"` and the decimal form). -/
def pyStr : PyVal → String
  | PyVal.str s => s
  | v => String.mk (pyRepr v)

mutual
/-- The JSON-representable values whose `dumps`/`loads` round trip is
structural identity: every dict in the value has distinct `str` keys. -/
def jsonSafe : PyVal → Bool
  | PyVal.none => true
  | PyVal.bool _ => true
  | PyVal.int _ => true
  | PyVal.str _ => true
  | PyVal.list xs => jsonSafeList xs
  | PyVal.dict kvs => nodupKeys kvs && jsonSafePairs kvs
def jsonSafeList : List PyVal → Bool
  | [] => true
  | x :: xs => jsonSafe x && jsonSafeList xs
def jsonSafePairs : List (PyVal × PyVal) → Bool
  | [] => true
  | (k, v) :: kvs =>
    (match k with | PyVal.str _ => true | _ => false) && jsonSafe v && jsonSafePairs kvs
def nodupKeys : List (PyVal × PyVal) → Bool
  | [] => true
  | (k, _) :: kvs => kvs.all (fun q => !pyScalarEq q.1 k) && nodupKeys kvs
end

/-! ## Persistent store: model of database.py

Tables are lists of rows in rowid order.  `CURRENT_TIMESTAMP` is the `Nat`
argument `t` of each writing operation.  Each operation is one transaction:
an error leaves the original store untouched (rollback / close-without-commit
both discard the uncommitted writes). -/

/-- Row of `datasheet_analysis` (id, filename, vendor_code, analysis_result,
file_hash, status DEFAULT 'Finish', created_at, updated_at). -/
structure AnalysisRow where
  id : Nat
  filename : String
  vendor_code : Option String
  analysis_result : String
  file_hash : Option String
  status : String
  created_at : Nat
  updated_at : Nat
deriving DecidableEq

/-- Row of `analysis_metadata`; every writer stores a string value. -/
structure MetadataRow where
  id : Nat
  datasheet_id : Nat
  key : String
  value : String
deriving DecidableEq

/-- Row of `checkpoint`; `python_code` is a non-nullable column, hence a
plain `String` here. -/
structure CheckpointRow where
  id : Nat
  datasheet_id : Nat
  text : String
  python_code : String
  created_at : Nat
deriving DecidableEq

/-- The SQLite file: the three tables plus the next fresh rowid of each. -/
structure DB where
  analyses : List AnalysisRow
  metaRows : List MetadataRow
  checkpoints : List CheckpointRow
  nextAnalysisId : Nat
  nextMetaId : Nat
  nextCheckpointId : Nat
deriving DecidableEq

/-- Exceptions escaping the store operations. -/
inductive DBErr where
  /-- The `ValueError` raised by `insert_analysis` for `sqlite3.IntegrityError`. -/
  | duplicateData
  /-- An `sqlite3.IntegrityError` escaping uncaught (`update_analysis`). -/
  | integrityErr
  /-- An `sqlite3.InterfaceError`: unbindable parameter (list/dict key). -/
  | bindErr
  /-- A `TypeError` from `json.dumps` on an unserializable value. -/
  | typeErr
deriving DecidableEq

/-- SQLite `UNIQUE(filename, file_hash)` conflict test: NULL hashes never
conflict, so only rows with equal non-NULL hashes (and equal filenames)
collide. -/
def hashConflict : Option String → Option String → Bool
  | some a, some b => a == b
  | _, _ => false

/-- `INSERT INTO datasheet_analysis`: rejects a `UNIQUE(filename, file_hash)`
violation, else appends the row. -/
def sqlInsertAnalysis (rows : List AnalysisRow) (r : AnalysisRow) :
    Except DBErr (List AnalysisRow) :=
  if rows.any (fun q => q.filename == r.filename && hashConflict q.file_hash r.file_hash) then
    Except.error DBErr.integrityErr
  else Except.ok (rows ++ [r])

/-- `INSERT INTO analysis_metadata`: rejects a `UNIQUE(datasheet_id, key)`
violation, else appends the row. -/
def sqlInsertMeta (rows : List MetadataRow) (r : MetadataRow) :
    Except DBErr (List MetadataRow) :=
  if rows.any (fun q => q.datasheet_id == r.datasheet_id && q.key == r.key) then
    Except.error DBErr.integrityErr
  else Except.ok (rows ++ [r])

/-- The value stored for one metadata entry:
`json.dumps(value) if isinstance(value, (dict, list)) else str(value)`. -/
def serializeValue (v : PyVal) : Except DBErr String :=
  match v with
  | PyVal.list _ =>
    match pyDumps v with
    | Except.ok s => Except.ok s
    | Except.error _ => Except.error DBErr.typeErr
  | PyVal.dict _ =>
    match pyDumps v with
    | Except.ok s => Except.ok s
    | Except.error _ => Except.error DBErr.typeErr
  | _ => Except.ok (pyStr v)

/-- Binding a Python dict key as the TEXT `key` column: str passes through,
int and bool go through SQLite TEXT affinity (decimal / `1`-`0`), `None`
becomes NULL and violates NOT NULL, list/dict are unbindable. -/
def bindKey : PyVal → Except DBErr String
  | PyVal.str s => Except.ok s
  | PyVal.int i => Except.ok (String.mk (intChars i))
  | PyVal.bool b => Except.ok (if b then "1" else "0")
  | PyVal.none => Except.error DBErr.integrityErr
  | PyVal.list _ => Except.error DBErr.bindErr
  | PyVal.dict _ => Except.error DBErr.bindErr

/-- The metadata loop of `insert_analysis`: one plain INSERT per entry, in
dict order.  The value is serialized while the parameter tuple is built, then
the key is bound, then the constraints are checked. -/
def insertMetaLoop (rows : List MetadataRow) (nid did : Nat) :
    List (PyVal × PyVal) → Except DBErr (List MetadataRow × Nat)
  | [] => Except.ok (rows, nid)
  | (k, v) :: md => do
    let vs ← serializeValue v
    let ks ← bindKey k
    let rows2 ← sqlInsertMeta rows ⟨nid, did, ks, vs⟩
    insertMetaLoop rows2 (nid + 1) did md

/-- The `if metadata:` guard: `None` and the empty dict both skip the loop. -/
def mdList : Option (List (PyVal × PyVal)) → List (PyVal × PyVal)
  | some l => l
  | Option.none => []

/-- `DatasheetDatabase.insert_analysis`.  On any `IntegrityError` the
transaction is rolled back and a duplicate-data `ValueError` is raised; other
exceptions abort the transaction unchanged.  Returns the (possibly updated)
store and the new record id or the error. -/
def insert_analysis (db : DB) (t : Nat) (filename analysis_result : String)
    (vendor_code file_hash : Option String) (md : Option (List (PyVal × PyVal))) :
    DB × Except DBErr Nat :=
  let did := db.nextAnalysisId
  let attempt : Except DBErr DB := do
    let rows ← sqlInsertAnalysis db.analyses
      ⟨did, filename, vendor_code, analysis_result, file_hash, "Finish", t, t⟩
    let mr ← insertMetaLoop db.metaRows db.nextMetaId did (mdList md)
    Except.ok ⟨rows, mr.1, db.checkpoints, did + 1, mr.2, db.nextCheckpointId⟩
  match attempt with
  | Except.ok db2 => (db2, Except.ok did)
  | Except.error DBErr.integrityErr => (db, Except.error DBErr.duplicateData)
  | Except.error e => (db, Except.error e)

/-- Field update of `UPDATE datasheet_analysis SET ... WHERE id = ?`: only
the supplied fields change and `updated_at` is always touched; rows with a
different id are untouched. -/
def updateRowFields (aid : Nat) (ar vc : Option String) (t : Nat) (r : AnalysisRow) :
    AnalysisRow :=
  if r.id = aid then
    ⟨r.id, r.filename,
     (match vc with | some v => some v | Option.none => r.vendor_code),
     (match ar with | some a => a | Option.none => r.analysis_result),
     r.file_hash, r.status, r.created_at, t⟩
  else r

/-- The metadata loop of `update_analysis`: `INSERT OR REPLACE` per entry —
the conflicting row (if any) is deleted and the new row appended with a fresh
rowid. -/
def upsertMetaLoop (rows : List MetadataRow) (nid did : Nat) :
    List (PyVal × PyVal) → Except DBErr (List MetadataRow × Nat)
  | [] => Except.ok (rows, nid)
  | (k, v) :: md => do
    let vs ← serializeValue v
    let ks ← bindKey k
    let rows2 := (rows.filter (fun q => !(q.datasheet_id == did && q.key == ks))) ++
      [⟨nid, did, ks, vs⟩]
    upsertMetaLoop rows2 (nid + 1) did md

/-- `DatasheetDatabase.update_analysis`: partial row update (the UPDATE always
runs, `updated_at = CURRENT_TIMESTAMP` is always in the SET list), then the
metadata upserts; an exception rolls the transaction back. -/
def update_analysis (db : DB) (t : Nat) (aid : Nat) (ar vc : Option String)
    (md : Option (List (PyVal × PyVal))) : DB × Except DBErr Unit :=
  let rows := db.analyses.map (updateRowFields aid ar vc t)
  match upsertMetaLoop db.metaRows db.nextMetaId aid (mdList md) with
  | Except.ok mr => (⟨rows, mr.1, db.checkpoints, db.nextAnalysisId, mr.2, db.nextCheckpointId⟩,
      Except.ok ())
  | Except.error e => (db, Except.error e)

/-- `SELECT * FROM datasheet_analysis WHERE filename = ? ORDER BY created_at
DESC LIMIT 1`: some row of maximal `created_at` among those with the given
filename (the fold keeps the first maximal one; SQLite does not specify the
tie order).  `laterOf` is the selection step. -/
def laterOf (acc : Option AnalysisRow) (r : AnalysisRow) : Option AnalysisRow :=
  match acc with
  | Option.none => some r
  | some best => if best.created_at < r.created_at then some r else some best

def get_analysis_by_filename (db : DB) (fn : String) : Option AnalysisRow :=
  (db.analyses.filter (fun r => r.filename == fn)).foldl laterOf Option.none

/-- `json.loads` applied opportunistically to a stored metadata value; the raw
string is kept on decode failure. -/
def decodeMetaValue (s : String) : PyVal :=
  match pyLoads s with
  | some v => v
  | Option.none => PyVal.str s

/-- `DatasheetDatabase.get_metadata`: the key/value rows of one record, values
JSON-decoded opportunistically. -/
def get_metadata (db : DB) (did : Nat) : List (String × PyVal) :=
  (db.metaRows.filter (fun r => r.datasheet_id == did)).map
    (fun r => (r.key, decodeMetaValue r.value))

/-- Dict lookup in a `get_metadata` result. -/
def lookupMeta (m : List (String × PyVal)) (k : String) : Option PyVal :=
  (m.find? (fun p => p.1 == k)).map (fun p => p.2)

/-- `DatasheetDatabase.insert_checkpoint`: plain append, no constraints can
fire (`text` and `python_code` are always bound to strings). -/
def insert_checkpoint (db : DB) (t did : Nat) (text python_code : String) : DB × Nat :=
  (⟨db.analyses, db.metaRows,
    db.checkpoints ++ [⟨db.nextCheckpointId, did, text, python_code, t⟩],
    db.nextAnalysisId, db.nextMetaId, db.nextCheckpointId + 1⟩, db.nextCheckpointId)

/-! ## Fenced-block extraction

Model of `re.search(r'```(?:json)?\s*\n?(.*?)\n?```', raw, re.DOTALL)` as the
source uses it (once in the tag step, once in the checklist step).  The
backtracking alternatives collapse: if the greedy-first path (consume the
literal `json` tag when present, then the longest whitespace run, then the
optional newline, then the shortest content closed by an optional newline and
three backticks) fails, no other alternative at that start position can
succeed, because a closing fence cannot hide inside a whitespace run. -/

/-- Python `\s` on ASCII (the responses in scope are ASCII; the model leaves
other Unicode whitespace out). -/
def isPyWs (c : Char) : Bool :=
  c = ' ' || c = '\t' || c = '\n' || c = '\r' || c = '\x0b' || c = '\x0c'

/-- The literal triple backtick, returning the remainder. -/
def ticks3 : List Char → Option (List Char)
  | '\x60' :: '\x60' :: '\x60' :: rest => some rest
  | _ => Option.none

/-- Does `\n?```` ` match here (greedily preferring to take the newline)? -/
def closeAt (cs : List Char) : Bool :=
  match cs with
  | '\n' :: rest => (ticks3 rest).isSome || (ticks3 cs).isSome
  | _ => (ticks3 cs).isSome

/-- The lazy `(.*?)` scan: the shortest prefix after which the closing
`\n?```` ` matches. -/
def lazyScan : List Char → Option (List Char)
  | [] => Option.none
  | c :: rest =>
    if closeAt (c :: rest) then some []
    else (lazyScan rest).map (fun g => c :: g)

def dropPyWs : List Char → List Char
  | [] => []
  | c :: rest => if isPyWs c then dropPyWs rest else c :: rest

/-- The regex tail after a matched opening fence: `(?:json)?\s*\n?(.*?)`,
returning capture group 1. -/
def afterTicks (cs : List Char) : Option (List Char) :=
  let cs1 := match cs with
    | 'j' :: 's' :: 'o' :: 'n' :: rest => rest
    | other => other
  let cs2 := dropPyWs cs1
  let cs3 := match cs2 with
    | '\n' :: rest => rest
    | other => other
  lazyScan cs3

/-- `re.search`: try every start position left to right. -/
def searchFenced : List Char → Option (List Char)
  | [] => Option.none
  | c :: rest =>
    match ticks3 (c :: rest) with
    | some after =>
      match afterTicks after with
      | some g => some g
      | Option.none => searchFenced rest
    | Option.none => searchFenced rest

/-- Python `str.strip()` on the ASCII whitespace set. -/
def pyStripChars (cs : List Char) : List Char :=
  (dropPyWs (dropPyWs cs.reverse).reverse)

def pyStripStr (s : String) : String := String.mk (pyStripChars s.data)

/-- `str.replace("'", '"')`, the quote normalization applied before parsing. -/
def normalizeQuotes (s : String) : String :=
  String.mk (s.data.map (fun c => if c = '\x27' then '"' else c))

/-! ## Analysis pipeline: model of `DataAnalyzerTab.analyze_datasheet` -/

/-- Candidate payload of the tag step: group 1 of the first fenced block,
stripped, or the whole stripped response when no fence matches. -/
def tagCandidate (raw : String) : String :=
  match searchFenced raw.data with
  | some g => String.mk (pyStripChars g)
  | Option.none => pyStripStr raw

/-- Candidate payload of the checklist step (the source duplicates the same
extraction code). -/
def checkpointCandidate (raw : String) : String :=
  match searchFenced raw.data with
  | some g => String.mk (pyStripChars g)
  | Option.none => pyStripStr raw

/-- One iteration of the tag fold: an entry that is an object with both
`Name` and `Description` is written into the metadata dict; writing an
unhashable `Name` (list/dict) raises `TypeError`, which the tag step does not
catch. -/
def foldTagEntry (m : List (PyVal × PyVal)) (tag : PyVal) :
    Except Unit (List (PyVal × PyVal)) :=
  match tag with
  | PyVal.dict kvs =>
    match strKeyLookup kvs "Name", strKeyLookup kvs "Description" with
    | some nm, some ds =>
      if pyHashable nm then Except.ok (dictSet m nm ds) else Except.error ()
    | _, _ => Except.ok m
  | _ => Except.ok m

/-- The tag step on the raw model response: fenced-block extraction, quote
normalization, `json.loads`; a parsed array is folded into the metadata dict;
a non-array parse leaves the dict empty; a parse failure stores the raw
candidate under the sentinel key `tags_raw`.  `Except.error` is the uncaught
`TypeError` of an unhashable `Name`. -/
def parseTagsStep (raw : String) : Except Unit (List (PyVal × PyVal)) :=
  let cand := tagCandidate raw
  match pyLoads (normalizeQuotes cand) with
  | some (PyVal.list xs) => xs.foldlM foldTagEntry []
  | some _ => Except.ok []
  | Option.none => Except.ok [(PyVal.str "tags_raw", PyVal.str cand)]

/-- The checklist step on the raw model response: same extraction and
normalization policy; a parsed array is stringified item-wise, anything else
(non-array or parse failure) yields the empty checklist. -/
def parseCheckpointsStep (raw : String) : List String :=
  let cand := checkpointCandidate raw
  match pyLoads (normalizeQuotes cand) with
  | some (PyVal.list xs) => xs.map pyStr
  | some _ => []
  | Option.none => []

/-- Outcome of one `CubicLDRC` code-synthesis invocation for one checklist
item. -/
inductive SynthOutcome where
  /-- Zero exit code and the output file exists with this content. -/
  | ok (code : String)
  /-- Non-zero exit code. -/
  | exitNonzero
  /-- Zero exit but the output file is missing. -/
  | outputMissing
  /-- `subprocess.run` timeout expired. -/
  | timedOut
deriving DecidableEq

/-- The code artifact persisted for one item: the synthesized code on
success, the empty string on any failure (the fallback insert of the
`except` branch). -/
def synthArtifact : SynthOutcome → String
  | SynthOutcome.ok code => code
  | _ => ""

/-- The checkpoint loop: every item is persisted, with an empty code artifact
when its synthesis failed; no failure aborts the loop. -/
def processCheckpoints (db : DB) (t did idx : Nat) (items : List String)
    (synth : Nat → SynthOutcome) : DB :=
  match items with
  | [] => db
  | item :: rest =>
    processCheckpoints (insert_checkpoint db t did item (synthArtifact (synth idx))).1
      t did (idx + 1) rest synth

/-- Per-descriptor processing status (`CreatingResultFileStatus`). -/
inductive Status where
  | ready
  | processing
  | finish
deriving DecidableEq

/-- In-memory descriptor of one watched file (`DataSheetInfo`). -/
structure Descriptor where
  filename : String
  status : Status
deriving DecidableEq

/-- The externally observed results of one run's outward calls: rasterization,
the four model calls, the content hash, and the per-item synthesis outcomes.
`Except.error` is the call raising. -/
structure RunOracle where
  raster : Except Unit (List String)
  vendorResp : Except Unit String
  analysisResp : Except Unit String
  tagResp : Except Unit String
  checkpointResp : Except Unit String
  fileHash : Except Unit String
  synth : Nat → SynthOutcome

/-- The body of `analyze_datasheet` inside the outer `try`: the strictly
sequential stages.  `Option.none` is an exception escaping to the outer
handler (run failed); `some db2` is the run completing with the store left as
`db2`.  The store-saving block catches its own errors (a duplicate or any
other store failure is logged and swallowed, leaving the store unchanged),
so it cannot fail the run. -/
def runPipeline (db : DB) (t : Nat) (filename : String) (o : RunOracle) : Option DB :=
  match o.raster with
  | Except.error _ => Option.none
  | Except.ok _images =>
  match o.vendorResp with
  | Except.error _ => Option.none
  | Except.ok vraw =>
  let vendor_code := pyStripStr vraw
  match o.analysisResp with
  | Except.error _ => Option.none
  | Except.ok analysis_result =>
  match o.tagResp with
  | Except.error _ => Option.none
  | Except.ok tagsRaw =>
  match parseTagsStep tagsRaw with
  | Except.error _ => Option.none
  | Except.ok md =>
  match o.checkpointResp with
  | Except.error _ => Option.none
  | Except.ok cpRaw =>
  let checkpoints_list := parseCheckpointsStep cpRaw
  some (match o.fileHash with
    | Except.error _ => db
    | Except.ok h =>
      match insert_analysis db t filename analysis_result (some vendor_code) (some h)
          (some md) with
      | (db1, Except.ok did) => processCheckpoints db1 t did 0 checkpoints_list o.synth
      | (_, Except.error _) => db)

/-- `analyze_datasheet`: status goes to Processing first, then the run body
executes; on completion the status becomes Finish, on an escaping exception
it is restored to Ready.  The third component is the ghost trace of the
status writes performed, in order. -/
def analyze_datasheet (db : DB) (t : Nat) (d : Descriptor) (o : RunOracle) :
    DB × Descriptor × List Status :=
  match runPipeline db t d.filename o with
  | some db2 => (db2, ⟨d.filename, Status.finish⟩, [Status.processing, Status.finish])
  | Option.none => (db, ⟨d.filename, Status.ready⟩, [Status.processing, Status.ready])

/-- `on_analysis_timer`: the descriptors dispatched to the pipeline this tick
are exactly those currently Ready. -/
def on_analysis_timer (ds : List Descriptor) : List Descriptor :=
  ds.filter (fun d => d.status == Status.ready)

/-- The transition edges the specification allows a descriptor's status to
take (stated from the spec, to be checked against the code's writes). -/
def allowedTransition (a b : Status) : Prop :=
  (a = Status.ready ∧ b = Status.processing) ∨
  (a = Status.processing ∧ b = Status.finish) ∨
  (a = Status.processing ∧ b = Status.ready)

/-- A status history every step of which is an allowed transition. -/
def statusChain : List Status → Prop
  | a :: b :: rest => allowedTransition a b ∧ statusChain (b :: rest)
  | _ => True

/-! ## Document rasterizer: model of `pdf_to_base64_images` -/

def b64Char (n : Nat) : Char :=
  ("ABCDEFGHIJKLMNOPQRSTUVWXYZabcdefghijklmnopqrstuvwxyz0123456789+/".data).getD n 'A'

/-- RFC 4648 base64 with padding (`base64.b64encode`). -/
def base64Encode : List Nat → List Char
  | b1 :: b2 :: b3 :: rest =>
    b64Char (b1 / 4) :: b64Char (b1 % 4 * 16 + b2 / 16) ::
    b64Char (b2 % 16 * 4 + b3 / 64) :: b64Char (b3 % 64) :: base64Encode rest
  | [b1, b2] => [b64Char (b1 / 4), b64Char (b1 % 4 * 16 + b2 / 16), b64Char (b2 % 16 * 4), '=']
  | [b1] => [b64Char (b1 / 4), b64Char (b1 % 4 * 16), '=', '=']
  | [] => []

/-- `pdf_to_base64_images` on a readable document: `pages` is the list of the
document's rendered PNG page bytes at the requested resolution, in page
order; the loop runs over `range(min(len(doc), max_pages))` and emits one
`data:` URI per rendered page. -/
def pdf_to_base64_images (pages : List (List Nat)) (max_pages : Nat) : List String :=
  (pages.take max_pages).map
    (fun bytes => "data:image/png;base64," ++ String.mk (base64Encode bytes))

/-! ## Derived observations and proof-side measures -/

/-- The `(text, code)` pairs persisted for one record, in rowid order. -/
def checkpointsFor (db : DB) (did : Nat) : List (String × String) :=
  (db.checkpoints.filter (fun r => r.datasheet_id == did)).map
    (fun r => (r.text, r.python_code))

/-- What the checkpoint loop is expected to persist: every item in order,
paired with its synthesized code or `""` on failure. -/
def expectedCkpts : Nat → List String → (Nat → SynthOutcome) → List (String × String)
  | _, [], _ => []
  | idx, item :: rest, synth =>
    (item, synthArtifact (synth idx)) :: expectedCkpts (idx + 1) rest synth

/-- At most one analysis row per (filename, non-null hash): no two distinct
positions of the table agree on the filename and a non-null hash. -/
def pairUnique (rows : List AnalysisRow) : Prop :=
  rows.Pairwise (fun r1 r2 =>
    ¬(r1.filename = r2.filename ∧ ∃ hh, r1.file_hash = some hh ∧ r2.file_hash = some hh))

/-- The stored TEXT value of one metadata key of one record in a row list
(the table has at most one such row under its UNIQUE constraint; `find?`
takes the first). -/
def findMetaRow (rows : List MetadataRow) (did : Nat) (k : String) : Option String :=
  (rows.find? (fun r => r.datasheet_id == did && r.key == k)).map (fun r => r.value)

/-- The stored TEXT value of one metadata key of one record. -/
def storedMeta (db : DB) (did : Nat) (k : String) : Option String :=
  findMetaRow db.metaRows did k

/-- Replace an oracle's synthesis outcomes, keeping every remote response. -/
def withSynth (o : RunOracle) (s : Nat → SynthOutcome) : RunOracle :=
  ⟨o.raster, o.vendorResp, o.analysisResp, o.tagResp, o.checkpointResp, o.fileHash, s⟩

/-- A compound (dict-or-list) value, the branch serialized through
`json.dumps`. -/
def isCompound : PyVal → Bool
  | PyVal.list _ => true
  | PyVal.dict _ => true
  | _ => false

/-- Characters that may legally follow a serialized integer without changing
how the number parses (everything except more digits and float
continuations). -/
def numBoundary : List Char → Bool
  | [] => true
  | c :: _ => !(c.isDigit || c = '.' || c = 'e' || c = 'E')

/-- Forget the `PyVal.str` wrappers of parsed-object keys (total; non-string
keys, which `jsonSafe` excludes, are dropped). -/
def unliftPairs : List (PyVal × PyVal) → List (String × PyVal)
  | [] => []
  | (PyVal.str s, v) :: kvs => (s, v) :: unliftPairs kvs
  | (_, _) :: kvs => unliftPairs kvs

mutual
/-- Size measure dominating the parser fuel a serialized value needs. -/
def sizeV : PyVal → Nat
  | PyVal.none => 1
  | PyVal.bool _ => 1
  | PyVal.int _ => 1
  | PyVal.str _ => 1
  | PyVal.list xs => 1 + sizeL xs
  | PyVal.dict kvs => 1 + sizeP kvs
def sizeL : List PyVal → Nat
  | [] => 1
  | x :: xs => 1 + sizeV x + sizeL xs
def sizeP : List (PyVal × PyVal) → Nat
  | [] => 1
  | (_, v) :: kvs => 2 + sizeV v + sizeP kvs
end

/-! ## Concrete fixtures used by witness theorems -/

/-- A store holding one analyzed record (id 1, filename `a.pdf`, hash `h`)
with one metadata entry. -/
def dbOne : DB :=
  ⟨[⟨1, "a.pdf", some "V1", "old text", some "h", "Finish", 3, 3⟩],
   [⟨1, 1, "k0", "v0"⟩], [], 2, 2, 1⟩

/-- An oracle whose every outward call succeeds; the tag response carries one
well-formed fenced tag array, the checklist response is unparsable. -/
def oracleA : RunOracle :=
  ⟨Except.ok ["img"], Except.ok " V123 ", Except.ok "analysis body",
   Except.ok "```json\n[\x7b\"Name\": \"VCC\", \"Description\": \"supply pin\"\x7d]\n```",
   Except.ok "no checklist here", Except.ok "hashv", fun _ => SynthOutcome.ok "code"⟩

/-- Like `oracleA`, but the tag response parses to an array holding an entry
whose `Name` is a (unhashable) list. -/
def oracleB : RunOracle :=
  ⟨Except.ok ["img"], Except.ok "V", Except.ok "body",
   Except.ok "[\x7b\"Name\": [], \"Description\": \"d\"\x7d]",
   Except.ok "[]", Except.ok "h2", fun _ => SynthOutcome.ok "c"⟩

/-- Like `oracleA`, but the tag response is not JSON at all. -/
def oracleC : RunOracle :=
  ⟨Except.ok ["img"], Except.ok "V", Except.ok "body",
   Except.ok "xyz", Except.ok "[]", Except.ok "h3", fun _ => SynthOutcome.ok "c"⟩

/-- Does a triple backtick occur anywhere (the matchability condition of the
fenced-block search)? -/
def hasFence : List Char → Bool
  | [] => false
  | c :: rest => (ticks3 (c :: rest)).isSome || hasFence rest

/-! # Theorems -/

/-! ## Generic helper lemmas -/

theorem except_bind_ok {ε α β : Type} (a : α) (f : α → Except ε β) :
    (Except.ok a >>= f) = f a := rfl

theorem except_bind_error {ε α β : Type} (e : ε) (f : α → Except ε β) :
    ((Except.error e : Except ε α) >>= f) = Except.error e := rfl


/-! ## Round-trip helper lemmas: characters and digits -/

theorem char_eq_iff_toNat {c d : Char} : c = d ↔ c.toNat = d.toNat := by
  constructor
  · intro h
    rw [h]
  · intro h
    exact Char.ext (UInt32.toNat.inj h)

theorem char_valid_toNat (c : Char) :
    c.toNat < 55296 ∨ (57343 < c.toNat ∧ c.toNat < 1114112) := c.valid

theorem hexVal_hexDigitChar : ∀ d, d < 16 → hexVal (hexDigitChar d) = some d := by
  decide

theorem digitChar_isDigit : ∀ d, d < 10 → (digitChar d).isDigit = true := by
  decide

theorem digitChar_toNat : ∀ d, d < 10 → (digitChar d).toNat = 48 + d := by
  decide

theorem digitChar_ne_zero : ∀ d, d < 10 → d ≠ 0 → digitChar d ≠ '0' := by
  decide

theorem isDigit_toNat {c : Char} (h : c.isDigit = true) :
    48 ≤ c.toNat ∧ c.toNat ≤ 57 := by
  simp [Char.isDigit] at h
  exact h

theorem natCharsGo_acc :
    ∀ (fuel n : Nat) (acc : List Char), n < fuel →
      natCharsGo fuel n acc = natChars n ++ acc := by
  intro fuel
  induction fuel using Nat.strong_induction_on with
  | _ fuel ih =>
    match fuel with
    | 0 => intro n acc h; omega
    | f + 1 =>
      intro n acc h
      by_cases h10 : n < 10
      · rw [natCharsGo, if_pos h10, natChars, natCharsGo, if_pos h10]
        rfl
      · rw [natCharsGo, if_neg h10]
        rw [ih f (Nat.lt_succ_self f) (n / 10) _ (by omega)]
        conv_rhs => rw [natChars, natCharsGo, if_neg h10]
        rw [ih n h (n / 10) _ (by omega)]
        simp

theorem natChars_small {n : Nat} (h : n < 10) : natChars n = [digitChar n] := by
  rw [natChars, natCharsGo, if_pos h]

theorem natChars_step {n : Nat} (h : 10 ≤ n) :
    natChars n = natChars (n / 10) ++ [digitChar (n % 10)] := by
  conv_lhs => rw [natChars, natCharsGo, if_neg (by omega)]
  rw [natCharsGo_acc n (n / 10) _ (by omega)]

theorem natChars_digits :
    ∀ n, ∀ c ∈ natChars n, c.isDigit = true := by
  intro n
  induction n using Nat.strong_induction_on with
  | _ n ih =>
    intro c hc
    by_cases h10 : n < 10
    · rw [natChars_small h10] at hc
      simp at hc
      exact hc ▸ digitChar_isDigit n h10
    · rw [natChars_step (by omega)] at hc
      rcases List.mem_append.mp hc with h2 | h2
      · exact ih (n / 10) (by omega) c h2
      · simp at h2
        exact h2 ▸ digitChar_isDigit (n % 10) (by omega)

theorem digitsToNat_append_one (ds : List Char) (d : Char) :
    digitsToNat (ds ++ [d]) = 10 * digitsToNat ds + (d.toNat - 48) := by
  rw [digitsToNat, List.foldl_append]
  rw [digitsToNat]
  simp [Nat.mul_comm]

theorem digitsToNat_natChars : ∀ n, digitsToNat (natChars n) = n := by
  intro n
  induction n using Nat.strong_induction_on with
  | _ n ih =>
    by_cases h10 : n < 10
    · rw [natChars_small h10, digitsToNat]
      simp [digitChar_toNat n h10]
    · rw [natChars_step (by omega), digitsToNat_append_one,
        ih (n / 10) (by omega), digitChar_toNat (n % 10) (by omega)]
      omega

theorem natChars_head :
    ∀ n, ∃ c cs, natChars n = c :: cs ∧ c.isDigit = true ∧ (n ≠ 0 → c ≠ '0') := by
  intro n
  induction n using Nat.strong_induction_on with
  | _ n ih =>
    by_cases h10 : n < 10
    · exact ⟨digitChar n, [], natChars_small h10, digitChar_isDigit n h10,
        fun h0 => digitChar_ne_zero n h10 h0⟩
    · obtain ⟨c, cs, heq, hdig, hz⟩ := ih (n / 10) (by omega)
      exact ⟨c, cs ++ [digitChar (n % 10)], by rw [natChars_step (by omega), heq]; rfl,
        hdig, fun _ => hz (by omega)⟩

/-! ## Round-trip helper lemmas: integer literals -/

theorem isDigit_char_ne {c : Char} (h : c.isDigit = true) (d : Char)
    (hd : d.toNat < 48 ∨ 57 < d.toNat) : c ≠ d := by
  intro hc
  obtain ⟨h1, h2⟩ := isDigit_toNat h
  rw [char_eq_iff_toNat] at hc
  omega

theorem isDigit_not_ws {c : Char} (h : c.isDigit = true) : jsonWs c = false := by
  rw [jsonWs]
  simp only [Bool.or_eq_false_iff, decide_eq_false_iff_not]
  exact ⟨⟨⟨isDigit_char_ne h ' ' (by decide), isDigit_char_ne h '\t' (by decide)⟩,
    isDigit_char_ne h '\n' (by decide)⟩, isDigit_char_ne h '\r' (by decide)⟩

theorem splitDigits_append (ds rest : List Char)
    (hds : ∀ c ∈ ds, c.isDigit = true)
    (hrest : ∀ c, rest.head? = some c → c.isDigit = false) :
    splitDigits (ds ++ rest) = (ds, rest) := by
  induction ds with
  | nil =>
    cases rest with
    | nil => rfl
    | cons r rest2 =>
      rw [List.nil_append, splitDigits, hrest r rfl]
      simp
  | cons c ds ih =>
    rw [List.cons_append, splitDigits, hds c (List.mem_cons_self _ _)]
    rw [ih (fun d hd => hds d (List.mem_cons_of_mem _ hd))]
    rfl

theorem numBoundary_parts {c : Char} {rest2 : List Char}
    (h : numBoundary (c :: rest2) = true) :
    c.isDigit = false ∧ c ≠ '.' ∧ c ≠ 'e' ∧ c ≠ 'E' := by
  rw [numBoundary] at h
  simp only [Bool.not_eq_eq_eq_not, Bool.not_true, Bool.or_eq_false_iff,
    decide_eq_false_iff_not] at h
  exact ⟨h.1.1.1, h.1.1.2, h.1.2, h.2⟩

theorem floatGuard_of_numBoundary {rest : List Char} (h : numBoundary rest = true) :
    floatGuard rest = false := by
  cases rest with
  | nil => rfl
  | cons c rest2 =>
    obtain ⟨-, h1, h2, h3⟩ := numBoundary_parts h
    rw [floatGuard]
    simp [h1, h2, h3]

theorem head_not_digit_of_numBoundary {rest : List Char} (h : numBoundary rest = true) :
    ∀ c, rest.head? = some c → c.isDigit = false := by
  intro c hc
  cases rest with
  | nil => simp at hc
  | cons r rest2 =>
    injection hc with hc
    subst hc
    exact (numBoundary_parts h).1

theorem parsePos_natChars (n : Nat) (rest : List Char) (hb : numBoundary rest = true) :
    parsePos (natChars n ++ rest) = some (n, rest) := by
  obtain ⟨c, cs, heq, hdig, hz⟩ := natChars_head n
  by_cases h0 : n = 0
  · subst h0
    rw [natChars_small (by omega)]
    rw [List.singleton_append, parsePos]
    rw [if_pos (show digitChar 0 = '0' by decide), floatGuard_of_numBoundary hb]
    rfl
  · rw [heq, List.cons_append, parsePos]
    rw [if_neg (hz h0), hdig]
    simp only [if_true]
    have hcs : ∀ d ∈ cs, d.isDigit = true := by
      intro d hd
      exact natChars_digits n d (heq ▸ List.mem_cons_of_mem _ hd)
    rw [splitDigits_append cs rest hcs (head_not_digit_of_numBoundary hb)]
    rw [floatGuard_of_numBoundary hb]
    have hsum : digitsToNat (c :: cs) = n := heq ▸ digitsToNat_natChars n
    simp [hsum]

theorem parseNumber_intChars (i : Int) (rest : List Char) (hb : numBoundary rest = true) :
    parseNumber (intChars i ++ rest) = some (i, rest) := by
  by_cases hneg : i < 0
  · rw [intChars, if_pos hneg, List.cons_append, parseNumber]
    rw [if_pos rfl, parsePos_natChars i.natAbs rest hb]
    have h2 : -(Int.ofNat i.natAbs) = i := by
      have h3 : Int.ofNat i.natAbs = (i.natAbs : Int) := rfl
      rw [h3]
      omega
    simp only [Option.map_some']
    rw [h2]
  · rw [intChars, if_neg hneg]
    obtain ⟨c, cs, heq, hdig, -⟩ := natChars_head i.natAbs
    rw [heq, List.cons_append, parseNumber]
    rw [if_neg (isDigit_char_ne hdig '-' (by decide))]
    rw [← List.cons_append, ← heq, parsePos_natChars i.natAbs rest hb]
    have h2 : Int.ofNat i.natAbs = i := by
      have h3 : Int.ofNat i.natAbs = (i.natAbs : Int) := rfl
      rw [h3]
      omega
    simp only [Option.map_some']
    rw [h2]

/-! ## Round-trip helper lemmas: string escapes -/

theorem hex4_recompose (n : Nat) (h : n < 65536) :
    n / 4096 % 16 * 4096 + n / 256 % 16 * 256 + n / 16 % 16 * 16 + n % 16 = n := by
  omega

theorem parseUEscape_toHex4 (n : Nat) (tail : List Char)
    (h9 : n < 65536) (hno : ¬(55296 ≤ n ∧ n ≤ 56319)) (hnlo : ¬(56320 ≤ n ∧ n ≤ 57343)) :
    parseUEscape (toHex4 n ++ tail) = some (Char.ofNat n, tail) := by
  rw [toHex4]
  simp only [List.cons_append, List.nil_append, parseUEscape]
  rw [hexVal_hexDigitChar _ (by omega), hexVal_hexDigitChar _ (by omega),
    hexVal_hexDigitChar _ (by omega), hexVal_hexDigitChar _ (by omega)]
  dsimp only
  rw [hex4_recompose n h9]
  rw [if_neg hno, if_neg hnlo]

theorem parseUEscape_surrogate (hi lo : Nat) (tail : List Char)
    (hhi1 : 55296 ≤ hi) (hhi2 : hi ≤ 56319) (hlo1 : 56320 ≤ lo) (hlo2 : lo ≤ 57343) :
    parseUEscape (toHex4 hi ++ '\\' :: 'u' :: (toHex4 lo ++ tail)) =
      some (Char.ofNat (65536 + (hi - 55296) * 1024 + (lo - 56320)), tail) := by
  rw [toHex4, toHex4]
  simp only [List.cons_append, List.nil_append, List.append_assoc, parseUEscape]
  rw [hexVal_hexDigitChar _ (by omega), hexVal_hexDigitChar _ (by omega),
    hexVal_hexDigitChar _ (by omega), hexVal_hexDigitChar _ (by omega)]
  dsimp only
  rw [hex4_recompose hi (by omega)]
  rw [if_pos ⟨hhi1, hhi2⟩]
  rw [if_pos (⟨trivial, trivial⟩ : True ∧ True)]
  rw [hexVal_hexDigitChar _ (by omega), hexVal_hexDigitChar _ (by omega),
    hexVal_hexDigitChar _ (by omega), hexVal_hexDigitChar _ (by omega)]
  dsimp only
  rw [hex4_recompose lo (by omega)]
  rw [if_pos ⟨hlo1, hlo2⟩]

theorem parseEsc_u (rest : List Char) : parseEsc ('u' :: rest) = parseUEscape rest := by
  simp [parseEsc]

/-- Every serialized character either stands for itself (no escape needed) or
serializes to a backslash escape that `parseEsc` decodes back to it. -/
theorem escChar_spec (c : Char) (tail : List Char) :
    (escChar c = [c] ∧ c ≠ '"' ∧ c ≠ '\\' ∧ ¬ c.toNat < 32) ∨
    (∃ esc2, escChar c = '\\' :: esc2 ∧ parseEsc (esc2 ++ tail) = some (c, tail)) := by
  by_cases h1 : c = '"'
  · subst h1
    exact Or.inr ⟨['"'], rfl, by simp [parseEsc, escUn]⟩
  by_cases h2 : c = '\\'
  · subst h2
    exact Or.inr ⟨['\\'], rfl, by simp [parseEsc, escUn]⟩
  by_cases h3 : c.toNat = 8
  · have hc : c = Char.ofNat 8 := by rw [← h3, Char.ofNat_toNat]
    subst hc
    exact Or.inr ⟨['b'], rfl, by simp [parseEsc, escUn]⟩
  by_cases h4 : c.toNat = 9
  · have hc : c = Char.ofNat 9 := by rw [← h4, Char.ofNat_toNat]
    subst hc
    exact Or.inr ⟨['t'], rfl, by simp [parseEsc, escUn]⟩
  by_cases h5 : c.toNat = 10
  · have hc : c = Char.ofNat 10 := by rw [← h5, Char.ofNat_toNat]
    subst hc
    exact Or.inr ⟨['n'], rfl, by simp [parseEsc, escUn]⟩
  by_cases h6 : c.toNat = 12
  · have hc : c = Char.ofNat 12 := by rw [← h6, Char.ofNat_toNat]
    subst hc
    exact Or.inr ⟨['f'], rfl, by simp [parseEsc, escUn]⟩
  by_cases h7 : c.toNat = 13
  · have hc : c = Char.ofNat 13 := by rw [← h7, Char.ofNat_toNat]
    subst hc
    exact Or.inr ⟨['r'], rfl, by simp [parseEsc, escUn]⟩
  by_cases h8 : c.toNat < 32 || 127 ≤ c.toNat
  · refine Or.inr ?_
    have hval := char_valid_toNat c
    rw [escChar]
    simp only [if_neg h1, if_neg h2, if_neg h3, if_neg h4, if_neg h5, if_neg h6,
      if_neg h7, if_pos h8]
    by_cases h9 : c.toNat < 65536
    · rw [if_pos h9]
      refine ⟨'u' :: toHex4 c.toNat, rfl, ?_⟩
      rw [List.cons_append, parseEsc_u,
        parseUEscape_toHex4 c.toNat tail h9 (by omega) (by omega), Char.ofNat_toNat]
    · rw [if_neg h9]
      refine ⟨'u' :: toHex4 (55296 + (c.toNat - 65536) / 1024) ++
        '\\' :: 'u' :: toHex4 (56320 + (c.toNat - 65536) % 1024), ?_, ?_⟩
      · simp
      · simp only [List.cons_append, List.append_assoc]
        rw [parseEsc_u]
        rw [parseUEscape_surrogate (55296 + (c.toNat - 65536) / 1024)
            (56320 + (c.toNat - 65536) % 1024) tail
            (by omega) (by omega) (by omega) (by omega)]
        have hcomb : 65536 + (55296 + (c.toNat - 65536) / 1024 - 55296) * 1024 +
            (56320 + (c.toNat - 65536) % 1024 - 56320) = c.toNat := by omega
        rw [hcomb, Char.ofNat_toNat]
  · refine Or.inl ⟨?_, h1, h2, ?_⟩
    · rw [escChar]
      simp only [if_neg h1, if_neg h2, if_neg h3, if_neg h4, if_neg h5, if_neg h6,
        if_neg h7, if_neg h8]
    · rw [Bool.or_eq_true, not_or] at h8
      simpa using h8.1

theorem parseStrBody_flatMap :
    ∀ (cs : List Char) (fuel : Nat) (rest : List Char), cs.length < fuel →
      parseStrBody fuel (cs.flatMap escChar ++ '"' :: rest) = some (cs, rest) := by
  intro cs
  induction cs with
  | nil =>
    intro fuel rest h
    match fuel, h with
    | f + 1, _ =>
      rw [List.flatMap_nil, List.nil_append, parseStrBody]
      rw [if_pos rfl]
  | cons c cs ih =>
    intro fuel rest h
    match fuel, h with
    | f + 1, h =>
      rw [List.flatMap_cons, List.append_assoc]
      rcases escChar_spec c (cs.flatMap escChar ++ '"' :: rest) with
        ⟨he, h1, h2, h3⟩ | ⟨esc2, he, hp⟩
      · rw [he, List.singleton_append, parseStrBody]
        rw [if_neg h1, if_neg h2, if_neg h3, ih f rest (by simp at h; omega)]
        rfl
      · rw [he, List.cons_append, parseStrBody]
        rw [if_neg (by decide), if_pos rfl, hp]
        dsimp only
        rw [ih f rest (by simp at h; omega)]
        rfl



theorem length_le_flatMap_escChar : ∀ cs : List Char, cs.length ≤ (cs.flatMap escChar).length := by
  intro cs
  induction cs with
  | nil => simp
  | cons c cs ih =>
    rw [List.flatMap_cons]
    rcases escChar_spec c [] with ⟨he, -, -, -⟩ | ⟨esc2, he, -⟩
    · rw [he]
      simp only [List.length_append, List.length_cons, List.length_singleton]
      omega
    · rw [he]
      simp only [List.length_append, List.length_cons]
      omega

/-! ## Round-trip helper lemmas: whitespace and head characters -/

theorem skipWs_cons_not {c : Char} (cs : List Char) (h : jsonWs c = false) :
    skipWs (c :: cs) = c :: cs := by
  rw [skipWs, if_neg (by rw [h]; exact Bool.false_ne_true)]

theorem parseVal_ws (fuel : Nat) (c : Char) (cs : List Char) (h : jsonWs c = true) :
    parseVal (fuel + 1) (c :: cs) = parseVal (fuel + 1) cs := by
  conv_lhs => rw [parseVal]
  conv_rhs => rw [parseVal]
  rw [skipWs, if_pos h]

theorem parseMember_ws (fuel : Nat) (c : Char) (cs : List Char) (h : jsonWs c = true) :
    parseMember (fuel + 1) (c :: cs) = parseMember (fuel + 1) cs := by
  conv_lhs => rw [parseMember]
  conv_rhs => rw [parseMember]
  rw [skipWs, if_pos h]

theorem natChars_head_facts (n : Nat) :
    ∃ c tl, natChars n = c :: tl ∧ c.isDigit = true := by
  obtain ⟨c, cs, heq, hdig, -⟩ := natChars_head n
  exact ⟨c, cs, heq, hdig⟩

theorem intChars_head (i : Int) :
    ∃ c tl, intChars i = c :: tl ∧ jsonWs c = false ∧ c ≠ '"' ∧ c ≠ '\x7b' ∧ c ≠ '[' ∧
      c ≠ 't' ∧ c ≠ 'f' ∧ c ≠ 'n' ∧ c ≠ ']' ∧ c ≠ '\x7d' := by
  by_cases hneg : i < 0
  · refine ⟨'-', natChars i.natAbs, by rw [intChars, if_pos hneg], by decide, by decide,
      by decide, by decide, by decide, by decide, by decide, by decide, by decide⟩
  · obtain ⟨c, cs, heq, hdig⟩ := natChars_head_facts i.natAbs
    exact ⟨c, cs, by rw [intChars, if_neg hneg, heq], isDigit_not_ws hdig,
      isDigit_char_ne hdig '"' (by decide), isDigit_char_ne hdig '\x7b' (by decide),
      isDigit_char_ne hdig '[' (by decide), isDigit_char_ne hdig 't' (by decide),
      isDigit_char_ne hdig 'f' (by decide), isDigit_char_ne hdig 'n' (by decide),
      isDigit_char_ne hdig ']' (by decide), isDigit_char_ne hdig '\x7d' (by decide)⟩

/-- Serialized values never start with whitespace, a closing bracket, a
closing brace or a comma (heads are `n t f " [ \x7b -` or a digit). -/
theorem dumpVal_head (v : PyVal) (ds : List Char) (h : dumpVal v = Except.ok ds) :
    ∃ c tl, ds = c :: tl ∧ jsonWs c = false ∧ c ≠ ']' ∧ c ≠ '\x7d' ∧ c ≠ ',' := by
  cases v with
  | none =>
    rw [dumpVal] at h
    injection h with h
    exact ⟨'n', _, h.symm, by decide, by decide, by decide, by decide⟩
  | bool b =>
    rw [dumpVal] at h
    cases b with
    | true =>
      injection h with h
      exact ⟨'t', _, h.symm, by decide, by decide, by decide, by decide⟩
    | false =>
      injection h with h
      exact ⟨'f', _, h.symm, by decide, by decide, by decide, by decide⟩
  | int i =>
    rw [dumpVal] at h
    injection h with h
    obtain ⟨c, tl, heq, hws, h1, h2, h3, h4, h5, h6, h7, h8⟩ := intChars_head i
    refine ⟨c, tl, by rw [← h, heq], hws, h7, h8, ?_⟩
    rcases heq with heq
    by_cases hneg : i < 0
    · rw [intChars, if_pos hneg] at heq
      injection heq with hc
      rw [← hc]
      decide
    · rw [intChars, if_neg hneg] at heq
      obtain ⟨c2, cs2, heq2, hdig⟩ := natChars_head_facts i.natAbs
      rw [heq2] at heq
      injection heq with hc
      rw [← hc]
      exact isDigit_char_ne hdig ',' (by decide)
  | str s =>
    rw [dumpVal] at h
    injection h with h
    rw [dumpStrChars] at h
    exact ⟨'"', _, h.symm, by decide, by decide, by decide, by decide⟩
  | list xs =>
    rw [dumpVal] at h
    cases hd : dumpList xs with
    | error e => rw [hd, except_bind_error] at h; exact Except.noConfusion h
    | ok inner =>
      rw [hd, except_bind_ok] at h
      injection h with h
      exact ⟨'[', inner ++ [']'], by rw [← h]; exact List.cons_append _ _ _, by decide,
        by decide, by decide, by decide⟩
  | dict kvs =>
    rw [dumpVal] at h
    cases hd : dumpPairs kvs with
    | error e => rw [hd, except_bind_error] at h; exact Except.noConfusion h
    | ok inner =>
      rw [hd, except_bind_ok] at h
      injection h with h
      exact ⟨'\x7b', inner ++ ['\x7d'], by rw [← h]; exact List.cons_append _ _ _,
        by decide, by decide, by decide, by decide⟩

/-! ## Round-trip helper lemmas: scalar values through `parseVal` -/

theorem parseVal_null (f : Nat) (rest : List Char) :
    parseVal (f + 1) ("null".data ++ rest) = some (PyVal.none, rest) := by
  show parseVal (f + 1) ('n' :: 'u' :: 'l' :: 'l' :: rest) = some (PyVal.none, rest)
  rw [parseVal, skipWs, if_neg (by decide)]
  dsimp only
  rw [if_neg (by decide), if_neg (by decide), if_neg (by decide), if_neg (by decide),
    if_neg (by decide), if_pos rfl]
  rfl

theorem parseVal_true (f : Nat) (rest : List Char) :
    parseVal (f + 1) ("true".data ++ rest) = some (PyVal.bool true, rest) := by
  show parseVal (f + 1) ('t' :: 'r' :: 'u' :: 'e' :: rest) = some (PyVal.bool true, rest)
  rw [parseVal, skipWs, if_neg (by decide)]
  dsimp only
  rw [if_neg (by decide), if_neg (by decide), if_neg (by decide), if_pos rfl]
  rfl

theorem parseVal_false (f : Nat) (rest : List Char) :
    parseVal (f + 1) ("false".data ++ rest) = some (PyVal.bool false, rest) := by
  show parseVal (f + 1) ('f' :: 'a' :: 'l' :: 's' :: 'e' :: rest) =
    some (PyVal.bool false, rest)
  rw [parseVal, skipWs, if_neg (by decide)]
  dsimp only
  rw [if_neg (by decide), if_neg (by decide), if_neg (by decide), if_neg (by decide),
    if_pos rfl]
  rfl

theorem parseVal_int (f : Nat) (i : Int) (rest : List Char) (hb : numBoundary rest = true) :
    parseVal (f + 1) (intChars i ++ rest) = some (PyVal.int i, rest) := by
  obtain ⟨c, tl, heq, hws, h1, h2, h3, h4, h5, h6, -, -⟩ := intChars_head i
  rw [heq, List.cons_append, parseVal, skipWs, if_neg (by rw [hws]; exact Bool.false_ne_true)]
  dsimp only
  rw [if_neg h1, if_neg h2, if_neg h3, if_neg h4, if_neg h5, if_neg h6]
  rw [← List.cons_append, ← heq, parseNumber_intChars i rest hb]
  rfl

theorem parseVal_dumpStr (f : Nat) (s : String) (rest : List Char) :
    parseVal (f + 1) (dumpStrChars s ++ rest) = some (PyVal.str s, rest) := by
  simp only [dumpStrChars, List.cons_append, List.append_assoc, List.singleton_append,
    List.nil_append]
  rw [parseVal, skipWs, if_neg (by decide)]
  dsimp only
  rw [if_pos rfl]
  rw [parseStrBody_flatMap s.data _ rest (by
    have hle := length_le_flatMap_escChar s.data
    simp only [List.length_append, List.length_cons]
    omega)]
  obtain ⟨data⟩ := s
  rfl

/-! ## Round-trip helper lemmas: closing tokens -/

theorem parseItemsTail_close (f : Nat) (rest : List Char) :
    parseItemsTail (f + 1) (']' :: rest) = some ([], rest) := by
  rw [parseItemsTail, skipWs, if_neg (by decide)]
  rfl

theorem parseMembers_close (f : Nat) (rest : List Char) :
    parseMembers (f + 1) ('\x7d' :: rest) = some ([], rest) := by
  rw [parseMembers, skipWs, if_neg (by decide)]
  rfl

theorem parseMembersTail_close (f : Nat) (rest : List Char) :
    parseMembersTail (f + 1) ('\x7d' :: rest) = some ([], rest) := by
  rw [parseMembersTail, skipWs, if_neg (by decide)]
  rfl

/-! ## Round-trip helper lemmas: dict key plumbing -/

theorem sizeV_pos (v : PyVal) : 1 ≤ sizeV v := by
  cases v <;> rw [sizeV] <;> omega

theorem sizeL_pos (xs : List PyVal) : 1 ≤ sizeL xs := by
  cases xs with
  | nil => rw [sizeL]
  | cons x xs => rw [sizeL]; omega

theorem sizeP_pos (kvs : List (PyVal × PyVal)) : 1 ≤ sizeP kvs := by
  cases kvs with
  | nil => rw [sizeP]
  | cons q kvs => obtain ⟨k, v⟩ := q; rw [sizeP]; omega

theorem numBoundary_cons (c : Char) (tl : List Char) :
    numBoundary (c :: tl) = !(c.isDigit || c = '.' || c = 'e' || c = 'E') := by
  rw [numBoundary]

theorem mem_unliftPairs : ∀ (kvs : List (PyVal × PyVal)) (p : String × PyVal),
    p ∈ unliftPairs kvs → (PyVal.str p.1, p.2) ∈ kvs := by
  intro kvs
  induction kvs with
  | nil => intro p h; rw [unliftPairs] at h; exact absurd h (List.not_mem_nil p)
  | cons q kvs ih =>
    intro p h
    obtain ⟨k, v⟩ := q
    cases k with
    | str s =>
      rw [unliftPairs] at h
      rcases List.mem_cons.mp h with h | h
      · rw [h]
        exact List.mem_cons_self _ _
      · exact List.mem_cons_of_mem _ (ih p h)
    | none =>
      have he : unliftPairs ((PyVal.none, v) :: kvs) = unliftPairs kvs := rfl
      rw [he] at h
      exact List.mem_cons_of_mem _ (ih p h)
    | bool b =>
      have he : unliftPairs ((PyVal.bool b, v) :: kvs) = unliftPairs kvs := rfl
      rw [he] at h
      exact List.mem_cons_of_mem _ (ih p h)
    | int i =>
      have he : unliftPairs ((PyVal.int i, v) :: kvs) = unliftPairs kvs := rfl
      rw [he] at h
      exact List.mem_cons_of_mem _ (ih p h)
    | list l =>
      have he : unliftPairs ((PyVal.list l, v) :: kvs) = unliftPairs kvs := rfl
      rw [he] at h
      exact List.mem_cons_of_mem _ (ih p h)
    | dict d =>
      have he : unliftPairs ((PyVal.dict d, v) :: kvs) = unliftPairs kvs := rfl
      rw [he] at h
      exact List.mem_cons_of_mem _ (ih p h)

theorem strSet_append (m : List (String × PyVal)) (k : String) (v : PyVal)
    (h : ∀ p ∈ m, p.1 ≠ k) : strSet m k v = m ++ [(k, v)] := by
  rw [strSet, if_neg]
  intro hc
  rw [List.any_eq_true] at hc
  obtain ⟨p, hp, hpk⟩ := hc
  exact h p hp (by simpa using hpk)

theorem foldl_strSet_append : ∀ (ps acc : List (String × PyVal)),
    (∀ p ∈ acc, ∀ q ∈ ps, p.1 ≠ q.1) →
    List.Pairwise (fun a b => a.1 ≠ b.1) ps →
    ps.foldl (fun m q => strSet m q.1 q.2) acc = acc ++ ps := by
  intro ps
  induction ps with
  | nil => intro acc h hp; simp
  | cons q ps ih =>
    intro acc h hp
    rw [List.pairwise_cons] at hp
    rw [List.foldl_cons]
    rw [strSet_append acc q.1 q.2 (fun p hpm => h p hpm q (List.mem_cons_self _ _))]
    have hacc2 : ∀ p ∈ acc ++ [q], ∀ q2 ∈ ps, p.1 ≠ q2.1 := by
      intro p hpm q2 hq2
      rcases List.mem_append.mp hpm with h1 | h1
      · exact h p h1 q2 (List.mem_cons_of_mem _ hq2)
      · have hpq : p = q := by simpa using h1
        rw [hpq]
        exact hp.1 q2 hq2
    rw [ih (acc ++ [q]) hacc2 hp.2]
    simp

theorem pairsToDict_nodup (ps : List (String × PyVal))
    (h : List.Pairwise (fun a b => a.1 ≠ b.1) ps) : pairsToDict ps = ps := by
  rw [pairsToDict, foldl_strSet_append ps [] (by intro p hp; simp at hp) h]
  simp

theorem unliftPairs_nodup : ∀ kvs, nodupKeys kvs = true → jsonSafePairs kvs = true →
    List.Pairwise (fun (a b : String × PyVal) => a.1 ≠ b.1) (unliftPairs kvs) := by
  intro kvs
  induction kvs with
  | nil => intro h1 h2; rw [unliftPairs]; exact List.Pairwise.nil
  | cons q kvs ih =>
    intro h1 h2
    obtain ⟨k, v⟩ := q
    cases k with
    | none =>
      have hfalse : jsonSafePairs ((PyVal.none, v) :: kvs) = false := rfl
      rw [hfalse] at h2
      exact Bool.noConfusion h2
    | bool b =>
      have hfalse : jsonSafePairs ((PyVal.bool b, v) :: kvs) = false := rfl
      rw [hfalse] at h2
      exact Bool.noConfusion h2
    | int i =>
      have hfalse : jsonSafePairs ((PyVal.int i, v) :: kvs) = false := rfl
      rw [hfalse] at h2
      exact Bool.noConfusion h2
    | list l =>
      have hfalse : jsonSafePairs ((PyVal.list l, v) :: kvs) = false := rfl
      rw [hfalse] at h2
      exact Bool.noConfusion h2
    | dict d =>
      have hfalse : jsonSafePairs ((PyVal.dict d, v) :: kvs) = false := rfl
      rw [hfalse] at h2
      exact Bool.noConfusion h2
    | str s =>
      rw [nodupKeys] at h1
      simp only [Bool.and_eq_true] at h1
      obtain ⟨hall, hnd⟩ := h1
      simp only [jsonSafePairs, Bool.and_eq_true, Bool.true_and] at h2
      obtain ⟨hv, hsp⟩ := h2
      rw [unliftPairs, List.pairwise_cons]
      refine ⟨?_, ih hnd hsp⟩
      intro a ha
      have hmem := mem_unliftPairs kvs a ha
      rw [List.all_eq_true] at hall
      have h3 := hall _ hmem
      simp only [pyScalarEq, Bool.not_eq_eq_eq_not, Bool.not_true] at h3
      have hne : a.1 ≠ s := by simpa using h3
      exact fun heq => hne heq.symm

theorem unliftPairs_lift : ∀ kvs, jsonSafePairs kvs = true →
    (unliftPairs kvs).map (fun q => (PyVal.str q.1, q.2)) = kvs := by
  intro kvs
  induction kvs with
  | nil => intro h; rw [unliftPairs]; rfl
  | cons q kvs ih =>
    intro h
    obtain ⟨k, v⟩ := q
    cases k with
    | none =>
      have hfalse : jsonSafePairs ((PyVal.none, v) :: kvs) = false := rfl
      rw [hfalse] at h
      exact Bool.noConfusion h
    | bool b =>
      have hfalse : jsonSafePairs ((PyVal.bool b, v) :: kvs) = false := rfl
      rw [hfalse] at h
      exact Bool.noConfusion h
    | int i =>
      have hfalse : jsonSafePairs ((PyVal.int i, v) :: kvs) = false := rfl
      rw [hfalse] at h
      exact Bool.noConfusion h
    | list l =>
      have hfalse : jsonSafePairs ((PyVal.list l, v) :: kvs) = false := rfl
      rw [hfalse] at h
      exact Bool.noConfusion h
    | dict d =>
      have hfalse : jsonSafePairs ((PyVal.dict d, v) :: kvs) = false := rfl
      rw [hfalse] at h
      exact Bool.noConfusion h
    | str s =>
      simp only [jsonSafePairs, Bool.and_eq_true, Bool.true_and] at h
      obtain ⟨hv, hsp⟩ := h
      rw [unliftPairs, List.map_cons, ih hsp]

theorem roundtrip_pairs (kvs : List (PyVal × PyVal)) (h1 : nodupKeys kvs = true)
    (h2 : jsonSafePairs kvs = true) :
    (pairsToDict (unliftPairs kvs)).map (fun q => (PyVal.str q.1, q.2)) = kvs := by
  rw [pairsToDict_nodup _ (unliftPairs_nodup kvs h1 h2), unliftPairs_lift kvs h2]

/-! ## The joint fuel induction: parsing after serializing -/

theorem parse_dump_all : ∀ fuel : Nat,
    (∀ v ds rest, jsonSafe v = true → dumpVal v = Except.ok ds → sizeV v ≤ fuel →
      numBoundary rest = true → parseVal fuel (ds ++ rest) = some (v, rest)) ∧
    (∀ xs ds rest, jsonSafeList xs = true → dumpList xs = Except.ok ds → sizeL xs ≤ fuel →
      parseItems fuel (ds ++ ']' :: rest) = some (xs, rest)) ∧
    (∀ x xs ds rest, jsonSafeList (x :: xs) = true → dumpList (x :: xs) = Except.ok ds →
      sizeL (x :: xs) + 1 ≤ fuel →
      parseItemsTail fuel (',' :: ' ' :: (ds ++ ']' :: rest)) = some (x :: xs, rest)) ∧
    (∀ kvs ds rest, jsonSafePairs kvs = true → dumpPairs kvs = Except.ok ds →
      sizeP kvs ≤ fuel →
      parseMembers fuel (ds ++ '\x7d' :: rest) = some (unliftPairs kvs, rest)) ∧
    (∀ k v kvs ds rest, jsonSafePairs ((k, v) :: kvs) = true →
      dumpPairs ((k, v) :: kvs) = Except.ok ds → sizeP ((k, v) :: kvs) + 1 ≤ fuel →
      parseMembersTail fuel (',' :: ' ' :: (ds ++ '\x7d' :: rest)) =
        some (unliftPairs ((k, v) :: kvs), rest)) ∧
    (∀ s v cv rest, jsonSafe v = true → dumpVal v = Except.ok cv → sizeV v + 1 ≤ fuel →
      numBoundary rest = true →
      parseMember fuel
        ('"' :: (s.data.flatMap escChar ++ '"' :: ':' :: ' ' :: (cv ++ rest))) =
        some (s, v, rest)) := by
  intro fuel
  induction fuel with
  | zero =>
    refine ⟨?_, ?_, ?_, ?_, ?_, ?_⟩
    · intro v ds rest h1 h2 h3 h4
      have := sizeV_pos v
      omega
    · intro xs ds rest h1 h2 h3
      have := sizeL_pos xs
      omega
    · intro x xs ds rest h1 h2 h3
      omega
    · intro kvs ds rest h1 h2 h3
      have := sizeP_pos kvs
      omega
    · intro k v kvs ds rest h1 h2 h3
      omega
    · intro s v cv rest h1 h2 h3 h4
      omega
  | succ f ih =>
    obtain ⟨ihV, ihI, ihT, ihM, ihMT, ihMem⟩ := ih
    refine ⟨?_, ?_, ?_, ?_, ?_, ?_⟩
    -- parseVal after dumpVal
    · intro v ds rest hsafe hdump hsize hb
      cases v with
      | none =>
        rw [dumpVal] at hdump
        injection hdump with hdump
        rw [← hdump]
        exact parseVal_null f rest
      | bool b =>
        rw [dumpVal] at hdump
        injection hdump with hdump
        cases b with
        | true => rw [← hdump]; exact parseVal_true f rest
        | false => rw [← hdump]; exact parseVal_false f rest
      | int i =>
        rw [dumpVal] at hdump
        injection hdump with hdump
        rw [← hdump]
        exact parseVal_int f i rest hb
      | str s =>
        rw [dumpVal] at hdump
        injection hdump with hdump
        rw [← hdump]
        exact parseVal_dumpStr f s rest
      | list xs =>
        rw [dumpVal] at hdump
        cases hd : dumpList xs with
        | error e => rw [hd, except_bind_error] at hdump; exact Except.noConfusion hdump
        | ok inner =>
          rw [hd, except_bind_ok] at hdump
          injection hdump with hdump
          rw [← hdump]
          have hin : (('[' :: inner) ++ [']']) ++ rest = '[' :: (inner ++ ']' :: rest) := by
            simp
          rw [hin, parseVal, skipWs, if_neg (by decide)]
          dsimp only
          rw [if_neg (by decide), if_neg (by decide), if_pos rfl]
          rw [jsonSafe] at hsafe
          rw [sizeV] at hsize
          rw [ihI xs inner rest hsafe hd (by omega)]
          rfl
      | dict kvs =>
        rw [dumpVal] at hdump
        cases hd : dumpPairs kvs with
        | error e => rw [hd, except_bind_error] at hdump; exact Except.noConfusion hdump
        | ok inner =>
          rw [hd, except_bind_ok] at hdump
          injection hdump with hdump
          rw [← hdump]
          have hin : (('\x7b' :: inner) ++ ['\x7d']) ++ rest =
              '\x7b' :: (inner ++ '\x7d' :: rest) := by
            simp
          rw [hin, parseVal, skipWs, if_neg (by decide)]
          dsimp only
          rw [if_neg (by decide), if_pos rfl]
          rw [jsonSafe] at hsafe
          simp only [Bool.and_eq_true] at hsafe
          rw [sizeV] at hsize
          rw [ihM kvs inner rest hsafe.2 hd (by omega)]
          dsimp only [Option.map_some']
          rw [roundtrip_pairs kvs hsafe.1 hsafe.2]
    -- parseItems after dumpList
    · intro xs ds rest hsafe hdump hsize
      cases xs with
      | nil =>
        rw [dumpList] at hdump
        injection hdump with hdump
        rw [← hdump, List.nil_append]
        rw [parseItems, skipWs, if_neg (by decide)]
        dsimp only
        rw [if_pos rfl]
      | cons x xs2 =>
        rw [jsonSafeList] at hsafe
        simp only [Bool.and_eq_true] at hsafe
        obtain ⟨hx, hxs⟩ := hsafe
        rw [sizeL] at hsize
        cases xs2 with
        | nil =>
          rw [dumpList] at hdump
          obtain ⟨c, tl, hds, hws, hne, -, -⟩ := dumpVal_head x ds hdump
          rw [hds, List.cons_append, parseItems, skipWs,
            if_neg (by rw [hws]; exact Bool.false_ne_true)]
          dsimp only
          rw [if_neg hne]
          rw [← List.cons_append, ← hds]
          have h1 := sizeV_pos x
          have h2 := sizeL_pos ([] : List PyVal)
          rw [ihV x ds (']' :: rest) hx hdump (by omega)
            (by rw [numBoundary_cons]; decide)]
          dsimp only
          obtain ⟨f2, rfl⟩ : ∃ f2, f = f2 + 1 := ⟨f - 1, by omega⟩
          rw [parseItemsTail_close f2 rest]
          rfl
        | cons y xs3 =>
          rw [dumpList] at hdump
          cases hdx : dumpVal x with
          | error e => rw [hdx, except_bind_error] at hdump; exact Except.noConfusion hdump
          | ok dx =>
            rw [hdx, except_bind_ok] at hdump
            cases hdr : dumpList (y :: xs3) with
            | error e =>
              rw [hdr, except_bind_error] at hdump
              exact Except.noConfusion hdump
            | ok dr =>
              rw [hdr, except_bind_ok] at hdump
              injection hdump with hdump
              rw [← hdump]
              have hin : (dx ++ ',' :: ' ' :: dr) ++ ']' :: rest =
                  dx ++ ',' :: ' ' :: (dr ++ ']' :: rest) := by
                simp
              rw [hin]
              obtain ⟨c, tl, hds, hws, hne, -, -⟩ := dumpVal_head x dx hdx
              rw [hds, List.cons_append, parseItems, skipWs,
                if_neg (by rw [hws]; exact Bool.false_ne_true)]
              dsimp only
              rw [if_neg hne]
              rw [← List.cons_append, ← hds]
              have h1 := sizeV_pos x
              have h2 := sizeL_pos (y :: xs3)
              rw [ihV x dx (',' :: ' ' :: (dr ++ ']' :: rest)) hx hdx (by omega)
                (by rw [numBoundary_cons]; decide)]
              dsimp only
              rw [ihT y xs3 dr rest hxs hdr (by omega)]
              rfl
    -- parseItemsTail after a comma-separated dumpList
    · intro x xs ds rest hsafe hdump hsize
      rw [parseItemsTail, skipWs, if_neg (by decide)]
      dsimp only
      rw [if_neg (by decide), if_pos rfl]
      rw [sizeL] at hsize
      have h1 := sizeV_pos x
      have h2 := sizeL_pos xs
      obtain ⟨f2, rfl⟩ : ∃ f2, f = f2 + 1 := ⟨f - 1, by omega⟩
      rw [parseVal_ws f2 ' ' (ds ++ ']' :: rest) (by decide)]
      rw [jsonSafeList] at hsafe
      simp only [Bool.and_eq_true] at hsafe
      obtain ⟨hx, hxs⟩ := hsafe
      cases xs with
      | nil =>
        rw [dumpList] at hdump
        rw [ihV x ds (']' :: rest) hx hdump (by omega) (by rw [numBoundary_cons]; decide)]
        dsimp only
        rw [parseItemsTail_close f2 rest]
        rfl
      | cons y xs3 =>
        rw [dumpList] at hdump
        cases hdx : dumpVal x with
        | error e => rw [hdx, except_bind_error] at hdump; exact Except.noConfusion hdump
        | ok dx =>
          rw [hdx, except_bind_ok] at hdump
          cases hdr : dumpList (y :: xs3) with
          | error e =>
            rw [hdr, except_bind_error] at hdump
            exact Except.noConfusion hdump
          | ok dr =>
            rw [hdr, except_bind_ok] at hdump
            injection hdump with hdump
            rw [← hdump]
            have hin : (dx ++ ',' :: ' ' :: dr) ++ ']' :: rest =
                dx ++ ',' :: ' ' :: (dr ++ ']' :: rest) := by
              simp
            rw [hin]
            have h3 := sizeL_pos (y :: xs3)
            rw [ihV x dx (',' :: ' ' :: (dr ++ ']' :: rest)) hx hdx (by omega)
              (by rw [numBoundary_cons]; decide)]
            dsimp only
            rw [ihT y xs3 dr rest hxs hdr (by omega)]
            rfl
    -- parseMembers after dumpPairs
    · intro kvs ds rest hsafe hdump hsize
      cases kvs with
      | nil =>
        rw [dumpPairs] at hdump
        injection hdump with hdump
        rw [← hdump, List.nil_append, unliftPairs]
        exact parseMembers_close f rest
      | cons q kvs2 =>
        obtain ⟨k, v⟩ := q
        cases k with
        | none =>
          have hfalse : jsonSafePairs ((PyVal.none, v) :: kvs2) = false := rfl
          rw [hfalse] at hsafe
          exact Bool.noConfusion hsafe
        | bool b =>
          have hfalse : jsonSafePairs ((PyVal.bool b, v) :: kvs2) = false := rfl
          rw [hfalse] at hsafe
          exact Bool.noConfusion hsafe
        | int i =>
          have hfalse : jsonSafePairs ((PyVal.int i, v) :: kvs2) = false := rfl
          rw [hfalse] at hsafe
          exact Bool.noConfusion hsafe
        | list l =>
          have hfalse : jsonSafePairs ((PyVal.list l, v) :: kvs2) = false := rfl
          rw [hfalse] at hsafe
          exact Bool.noConfusion hsafe
        | dict d =>
          have hfalse : jsonSafePairs ((PyVal.dict d, v) :: kvs2) = false := rfl
          rw [hfalse] at hsafe
          exact Bool.noConfusion hsafe
        | str s =>
          simp only [jsonSafePairs, Bool.and_eq_true, Bool.true_and] at hsafe
          obtain ⟨hv, hsp⟩ := hsafe
          rw [sizeP] at hsize
          have h1 := sizeV_pos v
          cases kvs2 with
          | nil =>
            rw [dumpPairs, dumpKey, except_bind_ok] at hdump
            cases hdv : dumpVal v with
            | error e =>
              rw [hdv, except_bind_error] at hdump
              exact Except.noConfusion hdump
            | ok cv =>
              rw [hdv, except_bind_ok] at hdump
              injection hdump with hdump
              rw [← hdump]
              have hin : (dumpStrChars s ++ ':' :: ' ' :: cv) ++ '\x7d' :: rest =
                  '"' :: (s.data.flatMap escChar ++
                    '"' :: ':' :: ' ' :: (cv ++ '\x7d' :: rest)) := by
                simp [dumpStrChars]
              rw [hin, parseMembers, skipWs, if_neg (by decide)]
              dsimp only
              rw [if_neg (by decide)]
              rw [ihMem s v cv ('\x7d' :: rest) hv hdv (by omega)
                (by rw [numBoundary_cons]; decide)]
              dsimp only
              obtain ⟨f2, rfl⟩ : ∃ f2, f = f2 + 1 := ⟨f - 1, by omega⟩
              rw [parseMembersTail_close f2 rest]
              rw [unliftPairs]
              rfl
          | cons q2 kvs3 =>
            rw [dumpPairs, dumpKey, except_bind_ok] at hdump
            cases hdv : dumpVal v with
            | error e =>
              rw [hdv, except_bind_error] at hdump
              exact Except.noConfusion hdump
            | ok cv =>
              rw [hdv, except_bind_ok] at hdump
              cases hdr : dumpPairs (q2 :: kvs3) with
              | error e =>
                rw [hdr, except_bind_error] at hdump
                exact Except.noConfusion hdump
              | ok dr =>
                rw [hdr, except_bind_ok] at hdump
                injection hdump with hdump
                rw [← hdump]
                have h2 := sizeP_pos (q2 :: kvs3)
                have hin : (dumpStrChars s ++ ':' :: ' ' :: cv ++ ',' :: ' ' :: dr) ++
                    '\x7d' :: rest =
                    '"' :: (s.data.flatMap escChar ++
                      '"' :: ':' :: ' ' :: (cv ++ ',' :: ' ' :: (dr ++ '\x7d' :: rest))) := by
                  simp [dumpStrChars]
                rw [hin, parseMembers, skipWs, if_neg (by decide)]
                dsimp only
                rw [if_neg (by decide)]
                rw [ihMem s v cv (',' :: ' ' :: (dr ++ '\x7d' :: rest)) hv hdv (by omega)
                  (by rw [numBoundary_cons]; decide)]
                dsimp only
                obtain ⟨k2, v2⟩ := q2
                rw [ihMT k2 v2 kvs3 dr rest hsp hdr (by omega)]
                rw [unliftPairs]
                rfl
    -- parseMembersTail after a comma-separated dumpPairs
    · intro k v kvs ds rest hsafe hdump hsize
      rw [parseMembersTail, skipWs, if_neg (by decide)]
      dsimp only
      rw [if_neg (by decide), if_pos rfl]
      cases k with
      | none =>
        have hfalse : jsonSafePairs ((PyVal.none, v) :: kvs) = false := rfl
        rw [hfalse] at hsafe
        exact Bool.noConfusion hsafe
      | bool b =>
        have hfalse : jsonSafePairs ((PyVal.bool b, v) :: kvs) = false := rfl
        rw [hfalse] at hsafe
        exact Bool.noConfusion hsafe
      | int i =>
        have hfalse : jsonSafePairs ((PyVal.int i, v) :: kvs) = false := rfl
        rw [hfalse] at hsafe
        exact Bool.noConfusion hsafe
      | list l =>
        have hfalse : jsonSafePairs ((PyVal.list l, v) :: kvs) = false := rfl
        rw [hfalse] at hsafe
        exact Bool.noConfusion hsafe
      | dict d =>
        have hfalse : jsonSafePairs ((PyVal.dict d, v) :: kvs) = false := rfl
        rw [hfalse] at hsafe
        exact Bool.noConfusion hsafe
      | str s =>
        simp only [jsonSafePairs, Bool.and_eq_true, Bool.true_and] at hsafe
        obtain ⟨hv, hsp⟩ := hsafe
        rw [sizeP] at hsize
        have h1 := sizeV_pos v
        have h2 := sizeP_pos kvs
        obtain ⟨f2, rfl⟩ : ∃ f2, f = f2 + 1 := ⟨f - 1, by omega⟩
        rw [parseMember_ws f2 ' ' (ds ++ '\x7d' :: rest) (by decide)]
        cases kvs with
        | nil =>
          rw [dumpPairs, dumpKey, except_bind_ok] at hdump
          cases hdv : dumpVal v with
          | error e =>
            rw [hdv, except_bind_error] at hdump
            exact Except.noConfusion hdump
          | ok cv =>
            rw [hdv, except_bind_ok] at hdump
            injection hdump with hdump
            rw [← hdump]
            have hin : (dumpStrChars s ++ ':' :: ' ' :: cv) ++ '\x7d' :: rest =
                '"' :: (s.data.flatMap escChar ++
                  '"' :: ':' :: ' ' :: (cv ++ '\x7d' :: rest)) := by
              simp [dumpStrChars]
            rw [hin]
            rw [ihMem s v cv ('\x7d' :: rest) hv hdv (by omega)
              (by rw [numBoundary_cons]; decide)]
            dsimp only
            rw [parseMembersTail_close f2 rest]
            rw [unliftPairs]
            rfl
        | cons q2 kvs3 =>
          rw [dumpPairs, dumpKey, except_bind_ok] at hdump
          cases hdv : dumpVal v with
          | error e =>
            rw [hdv, except_bind_error] at hdump
            exact Except.noConfusion hdump
          | ok cv =>
            rw [hdv, except_bind_ok] at hdump
            cases hdr : dumpPairs (q2 :: kvs3) with
            | error e =>
              rw [hdr, except_bind_error] at hdump
              exact Except.noConfusion hdump
            | ok dr =>
              rw [hdr, except_bind_ok] at hdump
              injection hdump with hdump
              rw [← hdump]
              have h3 := sizeP_pos (q2 :: kvs3)
              have hin : (dumpStrChars s ++ ':' :: ' ' :: cv ++ ',' :: ' ' :: dr) ++
                  '\x7d' :: rest =
                  '"' :: (s.data.flatMap escChar ++
                    '"' :: ':' :: ' ' :: (cv ++ ',' :: ' ' :: (dr ++ '\x7d' :: rest))) := by
                simp [dumpStrChars]
              rw [hin]
              rw [ihMem s v cv (',' :: ' ' :: (dr ++ '\x7d' :: rest)) hv hdv (by omega)
                (by rw [numBoundary_cons]; decide)]
              dsimp only
              obtain ⟨k2, v2⟩ := q2
              rw [ihMT k2 v2 kvs3 dr rest hsp hdr (by omega)]
              rw [unliftPairs]
              rfl
    -- parseMember after one serialized member
    · intro s v cv rest hv hdv hsize hb
      rw [parseMember, skipWs, if_neg (by decide)]
      dsimp only
      rw [if_pos rfl]
      rw [parseStrBody_flatMap s.data _ _ (by
        have hle := length_le_flatMap_escChar s.data
        simp only [List.length_append, List.length_cons]
        omega)]
      dsimp only
      rw [skipWs, if_neg (by decide)]
      dsimp only
      rw [if_pos rfl]
      have h1 := sizeV_pos v
      obtain ⟨f2, rfl⟩ : ∃ f2, f = f2 + 1 := ⟨f - 1, by omega⟩
      rw [parseVal_ws f2 ' ' (cv ++ rest) (by decide)]
      rw [ihV v cv rest hv hdv (by omega) hb]
      obtain ⟨data⟩ := s
      rfl

/-! ## Serialization succeeds on JSON-safe values, with a fuel-dominating bound -/

theorem dumpStrChars_length (s : String) :
    (dumpStrChars s).length = (s.data.flatMap escChar).length + 2 := by
  rw [dumpStrChars]
  simp only [List.length_append, List.length_cons, List.length_nil]

theorem intChars_length_pos (i : Int) : 1 ≤ (intChars i).length := by
  obtain ⟨c, tl, heq, -⟩ := intChars_head i
  rw [heq]
  simp

theorem dump_ok_bound : ∀ fuel : Nat,
    (∀ v, jsonSafe v = true → sizeV v ≤ fuel →
      ∃ l, dumpVal v = Except.ok l ∧ sizeV v + 1 ≤ 2 * l.length) ∧
    (∀ xs, jsonSafeList xs = true → sizeL xs ≤ fuel →
      ∃ l, dumpList xs = Except.ok l ∧ sizeL xs ≤ 2 * l.length + 2) ∧
    (∀ kvs, jsonSafePairs kvs = true → sizeP kvs ≤ fuel →
      ∃ l, dumpPairs kvs = Except.ok l ∧ sizeP kvs ≤ 2 * l.length + 2) := by
  intro fuel
  induction fuel with
  | zero =>
    refine ⟨?_, ?_, ?_⟩
    · intro v h1 h2
      have := sizeV_pos v
      omega
    · intro xs h1 h2
      have := sizeL_pos xs
      omega
    · intro kvs h1 h2
      have := sizeP_pos kvs
      omega
  | succ f ih =>
    obtain ⟨ihV, ihL, ihP⟩ := ih
    refine ⟨?_, ?_, ?_⟩
    · intro v hsafe hsize
      cases v with
      | none =>
        refine ⟨"null".data, by rw [dumpVal], ?_⟩
        rw [sizeV]
        decide
      | bool b =>
        cases b with
        | true =>
          refine ⟨"true".data, by rw [dumpVal]; rfl, ?_⟩
          rw [sizeV]
          decide
        | false =>
          refine ⟨"false".data, by rw [dumpVal]; rfl, ?_⟩
          rw [sizeV]
          decide
      | int i =>
        refine ⟨intChars i, by rw [dumpVal], ?_⟩
        have := intChars_length_pos i
        rw [sizeV]
        omega
      | str s =>
        refine ⟨dumpStrChars s, by rw [dumpVal], ?_⟩
        rw [sizeV, dumpStrChars_length]
        omega
      | list xs =>
        rw [jsonSafe] at hsafe
        rw [sizeV] at hsize
        obtain ⟨inner, hin, hb⟩ := ihL xs hsafe (by omega)
        refine ⟨('[' :: inner) ++ [']'], ?_, ?_⟩
        · rw [dumpVal, hin, except_bind_ok]
        · rw [sizeV]
          simp only [List.length_append, List.length_cons, List.length_nil]
          omega
      | dict kvs =>
        rw [jsonSafe] at hsafe
        simp only [Bool.and_eq_true] at hsafe
        rw [sizeV] at hsize
        obtain ⟨inner, hin, hb⟩ := ihP kvs hsafe.2 (by omega)
        refine ⟨('\x7b' :: inner) ++ ['\x7d'], ?_, ?_⟩
        · rw [dumpVal, hin, except_bind_ok]
        · rw [sizeV]
          simp only [List.length_append, List.length_cons, List.length_nil]
          omega
    · intro xs hsafe hsize
      cases xs with
      | nil =>
        refine ⟨[], by rw [dumpList], ?_⟩
        rw [sizeL]
        omega
      | cons x xs2 =>
        rw [jsonSafeList] at hsafe
        simp only [Bool.and_eq_true] at hsafe
        obtain ⟨hx, hxs⟩ := hsafe
        rw [sizeL] at hsize
        have h1 := sizeL_pos xs2
        obtain ⟨dx, hdx, hbx⟩ := ihV x hx (by omega)
        cases xs2 with
        | nil =>
          refine ⟨dx, by rw [dumpList]; exact hdx, ?_⟩
          rw [sizeL, sizeL]
          omega
        | cons y xs3 =>
          obtain ⟨dr, hdr, hbr⟩ := ihL (y :: xs3) hxs (by omega)
          refine ⟨dx ++ ',' :: ' ' :: dr, ?_, ?_⟩
          · rw [dumpList, hdx, except_bind_ok, hdr, except_bind_ok]
          · rw [sizeL]
            simp only [List.length_append, List.length_cons]
            omega
    · intro kvs hsafe hsize
      cases kvs with
      | nil =>
        refine ⟨[], by rw [dumpPairs], ?_⟩
        rw [sizeP]
        omega
      | cons q kvs2 =>
        obtain ⟨k, v⟩ := q
        cases k with
        | none =>
          have hfalse : jsonSafePairs ((PyVal.none, v) :: kvs2) = false := rfl
          rw [hfalse] at hsafe
          exact Bool.noConfusion hsafe
        | bool b =>
          have hfalse : jsonSafePairs ((PyVal.bool b, v) :: kvs2) = false := rfl
          rw [hfalse] at hsafe
          exact Bool.noConfusion hsafe
        | int i =>
          have hfalse : jsonSafePairs ((PyVal.int i, v) :: kvs2) = false := rfl
          rw [hfalse] at hsafe
          exact Bool.noConfusion hsafe
        | list l =>
          have hfalse : jsonSafePairs ((PyVal.list l, v) :: kvs2) = false := rfl
          rw [hfalse] at hsafe
          exact Bool.noConfusion hsafe
        | dict d =>
          have hfalse : jsonSafePairs ((PyVal.dict d, v) :: kvs2) = false := rfl
          rw [hfalse] at hsafe
          exact Bool.noConfusion hsafe
        | str s =>
          simp only [jsonSafePairs, Bool.and_eq_true, Bool.true_and] at hsafe
          obtain ⟨hv, hsp⟩ := hsafe
          rw [sizeP] at hsize
          have h1 := sizeP_pos kvs2
          obtain ⟨cv, hcv, hbv⟩ := ihV v hv (by omega)
          cases kvs2 with
          | nil =>
            refine ⟨dumpStrChars s ++ ':' :: ' ' :: cv, ?_, ?_⟩
            · rw [dumpPairs, dumpKey, except_bind_ok, hcv, except_bind_ok]
            · rw [sizeP, sizeP]
              simp only [List.length_append, List.length_cons, dumpStrChars_length]
              omega
          | cons q2 kvs3 =>
            obtain ⟨dr, hdr, hbr⟩ := ihP (q2 :: kvs3) hsp (by omega)
            refine ⟨dumpStrChars s ++ ':' :: ' ' :: cv ++ ',' :: ' ' :: dr, ?_, ?_⟩
            · rw [dumpPairs, dumpKey, except_bind_ok, hcv, except_bind_ok, hdr,
                except_bind_ok]
            · rw [sizeP]
              simp only [List.length_append, List.length_cons, dumpStrChars_length]
              omega

/-! ## The round trip: `json.loads` after `json.dumps` -/

/-- `json.loads(json.dumps(v))` returns `v` itself for every JSON-safe value:
string dict keys without duplicates (modulo Python scalar key equality). -/
theorem pyLoads_pyDumps (v : PyVal) (hjs : jsonSafe v = true) (s : String)
    (hd : pyDumps v = Except.ok s) : pyLoads s = some v := by
  rw [pyDumps] at hd
  cases hdv : dumpVal v with
  | error e =>
    rw [hdv] at hd
    exact Except.noConfusion hd
  | ok l =>
    rw [hdv] at hd
    have hd2 : Except.ok (String.mk l) = Except.ok s := hd
    injection hd2 with hd2
    rw [← hd2]
    rw [pyLoads]
    have hlen : (String.mk l).length = l.length := rfl
    have hdata : (String.mk l).data = l := rfl
    rw [hlen, hdata]
    obtain ⟨l2, hdv2, hbound⟩ := (dump_ok_bound (sizeV v)).1 v hjs (le_refl _)
    rw [hdv] at hdv2
    injection hdv2 with hdv2
    rw [← hdv2] at hbound
    have hparse := (parse_dump_all (2 * l.length + 4)).1 v l [] hjs hdv (by omega) rfl
    rw [List.append_nil] at hparse
    rw [hparse]
    rfl

/-! ## The stored metadata value of `insert_analysis` -/

theorem serializeValue_scalar (v : PyVal) (h : isCompound v = false) :
    serializeValue v = Except.ok (pyStr v) := by
  cases v with
  | none => rfl
  | bool b => rfl
  | int i => rfl
  | str s => rfl
  | list xs => rw [isCompound] at h; exact Bool.noConfusion h
  | dict kvs => rw [isCompound] at h; exact Bool.noConfusion h

theorem serializeValue_compound (v : PyVal) (hc : isCompound v = true)
    (hjs : jsonSafe v = true) :
    ∃ s, serializeValue v = Except.ok s ∧ pyLoads s = some v := by
  obtain ⟨l, hdv, -⟩ := (dump_ok_bound (sizeV v)).1 v hjs (le_refl _)
  have hpd : pyDumps v = Except.ok (String.mk l) := by
    rw [pyDumps, hdv]
    rfl
  have hload := pyLoads_pyDumps v hjs (String.mk l) hpd
  cases v with
  | none =>
    have hfalse : isCompound PyVal.none = false := rfl
    rw [hfalse] at hc
    exact Bool.noConfusion hc
  | bool b =>
    have hfalse : isCompound (PyVal.bool b) = false := rfl
    rw [hfalse] at hc
    exact Bool.noConfusion hc
  | int i =>
    have hfalse : isCompound (PyVal.int i) = false := rfl
    rw [hfalse] at hc
    exact Bool.noConfusion hc
  | str s =>
    have hfalse : isCompound (PyVal.str s) = false := rfl
    rw [hfalse] at hc
    exact Bool.noConfusion hc
  | list xs =>
    refine ⟨String.mk l, ?_, hload⟩
    rw [serializeValue, hpd]
  | dict kvs =>
    refine ⟨String.mk l, ?_, hload⟩
    rw [serializeValue, hpd]

/-! ## C5: metadata round trip through the store -/

theorem insert_single_meta (db : DB) (t : Nat) (fn ar : String) (vc fh : Option String)
    (key : String) (v : PyVal) (sv : String) (db2 : DB) (did : Nat)
    (hfresh : ∀ mr ∈ db.metaRows, mr.datasheet_id ≠ db.nextAnalysisId)
    (hser : serializeValue v = Except.ok sv)
    (hins : insert_analysis db t fn ar vc fh (some [(PyVal.str key, v)]) =
      (db2, Except.ok did)) :
    lookupMeta (get_metadata db2 did) key = some (decodeMetaValue sv) := by
  rw [insert_analysis] at hins
  cases hrows : sqlInsertAnalysis db.analyses
      ⟨db.nextAnalysisId, fn, vc, ar, fh, "Finish", t, t⟩ with
  | error e =>
    rw [hrows, except_bind_error] at hins
    cases e <;> simp at hins
  | ok rows1 =>
    rw [hrows, except_bind_ok] at hins
    rw [mdList, insertMetaLoop, hser, except_bind_ok, bindKey, except_bind_ok,
      sqlInsertMeta] at hins
    have hany : (db.metaRows.any fun q =>
        q.datasheet_id == db.nextAnalysisId && q.key == key) = false := by
      rw [List.any_eq_false]
      intro q hq hc
      rw [Bool.and_eq_true] at hc
      exact hfresh q hq (by simpa using hc.1)
    rw [if_neg (by rw [hany]; exact Bool.false_ne_true)] at hins
    rw [except_bind_ok, insertMetaLoop, except_bind_ok] at hins
    dsimp only at hins
    rw [Prod.mk.injEq] at hins
    obtain ⟨hdb2, hdid⟩ := hins
    injection hdid with hdid
    rw [← hdb2, ← hdid]
    rw [get_metadata]
    dsimp only
    rw [List.filter_append]
    have hfil : (db.metaRows.filter fun r => r.datasheet_id == db.nextAnalysisId) = [] := by
      rw [List.filter_eq_nil_iff]
      intro q hq
      intro hc
      exact hfresh q hq (by simpa using hc)
    rw [hfil, List.nil_append]
    rw [lookupMeta]
    simp

/-- C5 counterexample (scalar clause): inserting the scalar string `"5"` as a
metadata value succeeds, but reading it back yields the integer `5` — the
opportunistic `json.loads` in `get_metadata` re-decodes the stored text — so
the read value is not the same string that was stored. -/
theorem c5_scalar_counterexample :
    (insert_analysis ⟨[], [], [], 1, 1, 1⟩ 0 "f" "t" Option.none Option.none
        (some [(PyVal.str "k", PyVal.str "5")])).2 = Except.ok 1 ∧
    lookupMeta (get_metadata (insert_analysis ⟨[], [], [], 1, 1, 1⟩ 0 "f" "t" Option.none
        Option.none (some [(PyVal.str "k", PyVal.str "5")])).1 1) "k" =
      some (PyVal.int 5) ∧
    PyVal.int 5 ≠ PyVal.str "5" := by
  refine ⟨rfl, rfl, ?_⟩
  intro h
  exact PyVal.noConfusion h

/-- C5 (amended): for a fresh record, storing a single metadata entry whose
value is JSON-safe (every nested dict has distinct string keys) via
`insert_analysis` and reading it back via `get_metadata` yields a value
structurally equal to the original when the value is compound (dict or list);
for a scalar value the read-back is the opportunistic JSON decode of its
`str()` text (the same string back only when that text does not parse as
JSON). -/
theorem c5_metadata_roundtrip_amended (db : DB) (t : Nat) (fn ar : String)
    (vc fh : Option String) (key : String) (v : PyVal) (db2 : DB) (did : Nat)
    (hfresh : ∀ mr ∈ db.metaRows, mr.datasheet_id ≠ db.nextAnalysisId)
    (hjs : jsonSafe v = true)
    (hins : insert_analysis db t fn ar vc fh (some [(PyVal.str key, v)]) =
      (db2, Except.ok did)) :
    (isCompound v = true → lookupMeta (get_metadata db2 did) key = some v) ∧
    (isCompound v = false →
      lookupMeta (get_metadata db2 did) key = some (decodeMetaValue (pyStr v))) := by
  constructor
  · intro hc
    obtain ⟨sv, hsv, hload⟩ := serializeValue_compound v hc hjs
    rw [insert_single_meta db t fn ar vc fh key v sv db2 did hfresh hsv hins]
    rw [decodeMetaValue, hload]
  · intro hc
    rw [insert_single_meta db t fn ar vc fh key v (pyStr v) db2 did hfresh
      (serializeValue_scalar v hc) hins]

theorem c5_metadata_roundtrip_witness :
    lookupMeta (get_metadata (insert_analysis ⟨[], [], [], 1, 1, 1⟩ 0 "f" "t" Option.none
        Option.none (some [(PyVal.str "k", PyVal.dict [(PyVal.str "a", PyVal.int 1)])])).1 1)
      "k" = some (PyVal.dict [(PyVal.str "a", PyVal.int 1)]) :=
  (c5_metadata_roundtrip_amended ⟨[], [], [], 1, 1, 1⟩ 0 "f" "t" Option.none Option.none
    "k" (PyVal.dict [(PyVal.str "a", PyVal.int 1)])
    ((insert_analysis ⟨[], [], [], 1, 1, 1⟩ 0 "f" "t" Option.none Option.none
      (some [(PyVal.str "k", PyVal.dict [(PyVal.str "a", PyVal.int 1)])])).1) 1
    (fun mr hmr => absurd hmr (List.not_mem_nil mr))
    rfl rfl).1 rfl

theorem checkpointsFor_insert (db : DB) (t did : Nat) (item code : String) :
    checkpointsFor (insert_checkpoint db t did item code).1 did =
      checkpointsFor db did ++ [(item, code)] := by
  simp [insert_checkpoint, checkpointsFor, List.filter_append]

theorem checkpointsFor_process (db : DB) (t did idx : Nat) (items : List String)
    (synth : Nat → SynthOutcome) :
    checkpointsFor (processCheckpoints db t did idx items synth) did =
      checkpointsFor db did ++ expectedCkpts idx items synth := by
  induction items generalizing db idx with
  | nil => simp [processCheckpoints, expectedCkpts]
  | cons item rest ih =>
    rw [processCheckpoints, ih, checkpointsFor_insert, expectedCkpts]
    simp

theorem runPipeline_withSynth_none (db : DB) (t : Nat) (fn : String) (o : RunOracle)
    (s : Nat → SynthOutcome) :
    (runPipeline db t fn (withSynth o s) = Option.none) ↔
      (runPipeline db t fn o = Option.none) := by
  obtain ⟨ra, ve, an, tg, cp, fh, sy⟩ := o
  simp only [withSynth, runPipeline]
  cases ra <;> cases ve <;> cases an <;> cases tg <;> simp
  rename_i tagsRaw
  cases parseTagsStep tagsRaw <;> cases cp <;> simp

/-! ## C8 -/

/-- C8: on a readable document, rasterization returns exactly
`min n max_pages` encoded images, in page order, and the `i`-th output is the
base64 data-URI of the `i`-th page's PNG bytes. -/
theorem c8_rasterizer_bounded_ordered (pages : List (List Nat)) (max_pages : Nat) :
    (pdf_to_base64_images pages max_pages).length = min pages.length max_pages ∧
    ∀ i (h1 : i < (pdf_to_base64_images pages max_pages).length) (h2 : i < pages.length),
      (pdf_to_base64_images pages max_pages)[i] =
        "data:image/png;base64," ++ String.mk (base64Encode pages[i]) := by
  constructor
  · simp [pdf_to_base64_images, Nat.min_comm]
  · intro i h1 h2
    simp [pdf_to_base64_images]

/-- C8 witness: a two-page document with a five-page bound yields two images,
the first being the encoding of page one. -/
theorem c8_rasterizer_witness :
    (pdf_to_base64_images [[0, 1, 2], [3]] 5).length = min 2 5 ∧
    getElem (pdf_to_base64_images [[0, 1, 2], [3]] 5) 0 (by decide) =
      "data:image/png;base64," ++ String.mk (base64Encode [0, 1, 2]) :=
  ⟨(c8_rasterizer_bounded_ordered [[0, 1, 2], [3]] 5).1,
   (c8_rasterizer_bounded_ordered [[0, 1, 2], [3]] 5).2 0 (by decide) (by decide)⟩

/-! ## C4 -/

/-- C4: every checklist item is persisted — an item whose synthesis fails
(non-zero exit, missing output, timeout) is persisted with the empty-string
code artifact (the column is a non-nullable string), the remaining items are
all processed in order, and the synthesis outcomes never change the run's
final status. -/
theorem c4_synthesis_failure_isolated (db : DB) (t did idx : Nat) (items : List String)
    (synth : Nat → SynthOutcome) :
    checkpointsFor (processCheckpoints db t did idx items synth) did =
      checkpointsFor db did ++ expectedCkpts idx items synth ∧
    (synthArtifact SynthOutcome.exitNonzero = "" ∧
      synthArtifact SynthOutcome.outputMissing = "" ∧
      synthArtifact SynthOutcome.timedOut = "") ∧
    ∀ db2 t2 d o s1 s2,
      (analyze_datasheet db2 t2 d (withSynth o s1)).2.1.status =
        (analyze_datasheet db2 t2 d (withSynth o s2)).2.1.status := by
  refine ⟨checkpointsFor_process db t did idx items synth, ⟨rfl, rfl, rfl⟩, ?_⟩
  · intro db2 t2 d o s1 s2
    have h1 := runPipeline_withSynth_none db2 t2 d.filename o s1
    have h2 := runPipeline_withSynth_none db2 t2 d.filename o s2
    unfold analyze_datasheet
    cases hp1 : runPipeline db2 t2 d.filename (withSynth o s1) with
    | none =>
      have : runPipeline db2 t2 d.filename (withSynth o s2) = Option.none :=
        h2.mpr (h1.mp hp1)
      rw [this]
    | some db3 =>
      cases hp2 : runPipeline db2 t2 d.filename (withSynth o s2) with
      | none =>
        exact absurd (h1.mpr (h2.mp hp2)) (by rw [hp1]; simp)
      | some db4 => rfl

/-! ## C2 -/

/-- C2: a descriptor's status only moves along Ready → Processing → Finish
with the single extra edge Processing → Ready exactly when the run fails, and
a tick dispatches exactly the Ready descriptors. -/
theorem c2_status_machine (ds : List Descriptor) (db : DB) (t : Nat) (d : Descriptor)
    (o : RunOracle) (hd : d.status = Status.ready) :
    (∀ x, x ∈ on_analysis_timer ds ↔ x ∈ ds ∧ x.status = Status.ready) ∧
    statusChain (d.status :: (analyze_datasheet db t d o).2.2) ∧
    ((analyze_datasheet db t d o).2.1.status = Status.finish ↔
      (runPipeline db t d.filename o).isSome) ∧
    ((analyze_datasheet db t d o).2.1.status = Status.ready ↔
      runPipeline db t d.filename o = Option.none) := by
  refine ⟨?_, ?_, ?_, ?_⟩
  · intro x
    simp [on_analysis_timer, List.mem_filter]
  all_goals
    cases hp : runPipeline db t d.filename o <;>
      simp [analyze_datasheet, hp, statusChain, allowedTransition, hd]

/-- C2 witness: a Ready descriptor together with a fully succeeding oracle. -/
theorem c2_status_machine_witness :
    (⟨"a.pdf", Status.ready⟩ : Descriptor).status = Status.ready ∧
    (∀ x, x ∈ on_analysis_timer [⟨"a.pdf", Status.ready⟩] ↔
      x ∈ [(⟨"a.pdf", Status.ready⟩ : Descriptor)] ∧ x.status = Status.ready) ∧
    statusChain (Status.ready ::
      (analyze_datasheet dbOne 9 ⟨"a.pdf", Status.ready⟩ oracleA).2.2) ∧
    ((analyze_datasheet dbOne 9 ⟨"a.pdf", Status.ready⟩ oracleA).2.1.status = Status.finish ↔
      (runPipeline dbOne 9 "a.pdf" oracleA).isSome) ∧
    ((analyze_datasheet dbOne 9 ⟨"a.pdf", Status.ready⟩ oracleA).2.1.status = Status.ready ↔
      runPipeline dbOne 9 "a.pdf" oracleA = Option.none) :=
  ⟨rfl, c2_status_machine [⟨"a.pdf", Status.ready⟩] dbOne 9 ⟨"a.pdf", Status.ready⟩ oracleA rfl⟩

/-! ## Store lemmas shared by C1, C6, C10 -/

theorem hashConflict_none (x : Option String) : hashConflict x Option.none = false := by
  cases x <;> rfl

theorem serializeValue_error (v : PyVal) (e : DBErr) (h : serializeValue v = Except.error e) :
    e = DBErr.typeErr := by
  cases v <;> simp [serializeValue] at h <;> try exact h.symm
  case list xs =>
    cases hd : pyDumps (PyVal.list xs) <;> rw [hd] at h <;> simp_all
  case dict kvs =>
    cases hd : pyDumps (PyVal.dict kvs) <;> rw [hd] at h <;> simp_all

/-- Inversion of a successful `insert_analysis`: the uniqueness check passed,
the analysis row was appended, and the metadata loop succeeded. -/
theorem insert_analysis_ok_inv (db : DB) (t : Nat) (fn txt : String)
    (vc fh : Option String) (md : Option (List (PyVal × PyVal))) (db2 : DB) (did : Nat)
    (h : insert_analysis db t fn txt vc fh md = (db2, Except.ok did)) :
    did = db.nextAnalysisId ∧
    db.analyses.any (fun q => q.filename == fn && hashConflict q.file_hash fh) = false ∧
    db2.analyses = db.analyses ++ [⟨db.nextAnalysisId, fn, vc, txt, fh, "Finish", t, t⟩] ∧
    ∃ mr, insertMetaLoop db.metaRows db.nextMetaId db.nextAnalysisId (mdList md) =
        Except.ok mr ∧
      db2.metaRows = mr.1 := by
  cases hany : db.analyses.any (fun q => q.filename == fn && hashConflict q.file_hash fh) with
  | true =>
    exfalso
    simp [insert_analysis, sqlInsertAnalysis, hany, except_bind_error] at h
  | false =>
    cases hml : insertMetaLoop db.metaRows db.nextMetaId db.nextAnalysisId (mdList md) with
    | error e =>
      exfalso
      cases e <;>
        simp [insert_analysis, sqlInsertAnalysis, hany, hml, except_bind_ok,
          except_bind_error] at h
    | ok mr =>
      simp only [insert_analysis, sqlInsertAnalysis, hany, Bool.false_eq_true, if_false,
        except_bind_ok, hml, Prod.mk.injEq, Except.ok.injEq] at h
      obtain ⟨hdb2, hdid⟩ := h
      subst hdid
      subst hdb2
      exact ⟨rfl, rfl, rfl, mr, rfl, rfl⟩

/-! ## C1 -/

/-- C1: with a (filename, non-null hash) pair already present, a second
insert of the identical pair fails with the duplicate-data error and leaves
the store exactly unchanged — no analysis row and none of the supplied
metadata entries are written, whatever metadata was supplied. -/
theorem c1_duplicate_insert_rejected (db : DB) (t : Nat) (fn txt : String)
    (vc : Option String) (hh : String) (md : Option (List (PyVal × PyVal)))
    (hdup : ∃ r ∈ db.analyses, r.filename = fn ∧ r.file_hash = some hh) :
    insert_analysis db t fn txt vc (some hh) md = (db, Except.error DBErr.duplicateData) := by
  obtain ⟨r, hr, h1, h2⟩ := hdup
  have hany : db.analyses.any
      (fun q => q.filename == fn && hashConflict q.file_hash (some hh)) = true := by
    rw [List.any_eq_true]
    refine ⟨r, hr, ?_⟩
    simp [h1, h2, hashConflict]
  simp [insert_analysis, sqlInsertAnalysis, hany, except_bind_error]

/-- C1 witness: re-inserting the (filename, hash) pair held by `dbOne`. -/
theorem c1_duplicate_insert_witness :
    insert_analysis dbOne 9 "a.pdf" "new text" Option.none (some "h") Option.none =
      (dbOne, Except.error DBErr.duplicateData) :=
  c1_duplicate_insert_rejected dbOne 9 "a.pdf" "new text" Option.none "h" Option.none
    ⟨⟨1, "a.pdf", some "V1", "old text", some "h", "Finish", 3, 3⟩, by simp [dbOne], rfl, rfl⟩

/-! ## C10 -/

/-- With every metadata key bindable and the bound keys distinct and fresh
for this record, the metadata loop can only fail with a serialization
`TypeError`, never with an `IntegrityError`-family error. -/
theorem insertMetaLoop_error_kind :
    ∀ (md : List (PyVal × PyVal)) (rows : List MetadataRow) (nid did : Nat)
      (ks : List String) (e : DBErr),
      md.mapM (fun p => (bindKey p.1).toOption) = some ks → ks.Nodup →
      (∀ r ∈ rows, r.datasheet_id = did → r.key ∉ ks) →
      insertMetaLoop rows nid did md = Except.error e →
      e = DBErr.typeErr := by
  intro md
  induction md with
  | nil =>
    intro rows nid did ks e _ _ _ h
    simp [insertMetaLoop] at h
  | cons p md ih =>
    obtain ⟨k, v⟩ := p
    intro rows nid did ks e hmap hnd hpre h
    rw [List.mapM_cons] at hmap
    cases hbk : bindKey k with
    | error e2 =>
      rw [hbk] at hmap
      simp [Except.toOption] at hmap
    | ok k0 =>
      rw [hbk] at hmap
      simp only [Except.toOption, Option.pure_def, Option.bind_eq_bind,
        Option.some_bind, Option.bind_eq_some, Option.some.injEq] at hmap
      obtain ⟨ks2, hmap2, hks⟩ := hmap
      subst hks
      cases hsv : serializeValue v with
      | error e3 =>
        simp only [insertMetaLoop, hsv, except_bind_error] at h
        rw [serializeValue_error v e3 hsv] at h
        injection h with h2
        exact h2.symm
      | ok vs =>
        have hins : rows.any (fun q => q.datasheet_id == did && q.key == k0) = false := by
          rw [List.any_eq_false]
          intro r hr
          by_cases hdid : r.datasheet_id = did
          · have hnm := hpre r hr hdid
            simp only [Bool.and_eq_true, beq_iff_eq, not_and]
            intro _ hk
            exact hnm (hk ▸ List.mem_cons_self k0 ks2)
          · simp [hdid]
        simp only [insertMetaLoop, hsv, hbk, except_bind_ok, sqlInsertMeta, hins,
          Bool.false_eq_true, if_false] at h
        refine ih _ _ _ _ _ hmap2 (List.nodup_cons.mp hnd).2 ?_ h
        intro r hr hdid
        rcases List.mem_append.mp hr with hold | hnew
        · exact fun hin => hpre r hold hdid (List.mem_cons_of_mem _ hin)
        · simp only [List.mem_singleton] at hnew
          subst hnew
          exact (List.nodup_cons.mp hnd).1

theorem pairUnique_insert_preserved (db : DB) (t : Nat) (fn txt : String)
    (vc fh : Option String) (md : Option (List (PyVal × PyVal))) (db2 : DB) (did : Nat)
    (hu : pairUnique db.analyses)
    (h : insert_analysis db t fn txt vc fh md = (db2, Except.ok did)) :
    pairUnique db2.analyses := by
  obtain ⟨-, hany, hrows, -⟩ := insert_analysis_ok_inv db t fn txt vc fh md db2 did h
  rw [pairUnique, hrows, List.pairwise_append]
  refine ⟨hu, List.pairwise_singleton _ _, ?_⟩
  intro a ha b hb
  simp only [List.mem_singleton] at hb
  subst hb
  rintro ⟨hfn, hhv, ha2, hb2⟩
  have hq := List.any_eq_false.mp hany a ha
  simp only at hb2
  simp [hfn, ha2, hb2, hashConflict] at hq

/-- C10: with the content hash absent, `insert_analysis` never fails with the
duplicate error however often the filename repeats — the record is simply
appended — while the at-most-one-record-per-(filename, hash) invariant is
preserved by every successful insert for rows whose hash is non-null. -/
theorem c10_null_hash_duplicates_allowed (db : DB) (t : Nat) (fn txt : String)
    (vc : Option String) (md : List (PyVal × PyVal)) (ks : List String)
    (hbind : md.mapM (fun p => (bindKey p.1).toOption) = some ks)
    (hnd : ks.Nodup)
    (hfresh : ∀ mr ∈ db.metaRows, mr.datasheet_id ≠ db.nextAnalysisId) :
    ((insert_analysis db t fn txt vc Option.none (some md)).2 ≠
      Except.error DBErr.duplicateData) ∧
    (insert_analysis db t fn txt vc Option.none Option.none =
      (⟨db.analyses ++ [⟨db.nextAnalysisId, fn, vc, txt, Option.none, "Finish", t, t⟩],
        db.metaRows, db.checkpoints, db.nextAnalysisId + 1, db.nextMetaId,
        db.nextCheckpointId⟩, Except.ok db.nextAnalysisId)) ∧
    (∀ (fh2 : Option String) (md2 : Option (List (PyVal × PyVal))) (db3 : DB) (did3 : Nat),
      pairUnique db.analyses →
      insert_analysis db t fn txt vc fh2 md2 = (db3, Except.ok did3) →
      pairUnique db3.analyses) := by
  have hanyn : db.analyses.any
      (fun q => q.filename == fn && hashConflict q.file_hash Option.none) = false := by
    rw [List.any_eq_false]
    intro q hq
    simp [hashConflict_none]
  refine ⟨?_, ?_, ?_⟩
  · cases hml : insertMetaLoop db.metaRows db.nextMetaId db.nextAnalysisId md with
    | ok mr =>
      simp [insert_analysis, sqlInsertAnalysis, hanyn, hml, mdList, except_bind_ok]
    | error e =>
      have he : e = DBErr.typeErr := by
        refine insertMetaLoop_error_kind md db.metaRows db.nextMetaId db.nextAnalysisId
          ks e hbind hnd ?_ hml
        intro r hr hdid
        exact absurd hdid (hfresh r hr)
      subst he
      simp [insert_analysis, sqlInsertAnalysis, hanyn, hml, mdList, except_bind_ok,
        except_bind_error]
  · simp [insert_analysis, sqlInsertAnalysis, hanyn, mdList, insertMetaLoop,
      except_bind_ok]
  · intro fh2 md2 db3 did3 hu hins
    exact pairUnique_insert_preserved db t fn txt vc fh2 md2 db3 did3 hu hins

/-- C10 witness: the store already holds `a.pdf`; inserting `a.pdf` again
with a null hash succeeds rather than raising the duplicate error. -/
theorem c10_null_hash_witness :
    ([((PyVal.str "k" : PyVal), PyVal.int 7)].mapM
        (fun p => (bindKey p.1).toOption) = some ["k"]) ∧
    (["k"] : List String).Nodup ∧
    (∀ mr ∈ dbOne.metaRows, mr.datasheet_id ≠ dbOne.nextAnalysisId) ∧
    ((insert_analysis dbOne 9 "a.pdf" "txt" Option.none Option.none
        (some [(PyVal.str "k", PyVal.int 7)])).2 ≠ Except.error DBErr.duplicateData) :=
  ⟨rfl, by decide, by decide,
    (c10_null_hash_duplicates_allowed dbOne 9 "a.pdf" "txt" Option.none
      [(PyVal.str "k", PyVal.int 7)] ["k"] rfl (by decide) (by decide)).1⟩

/-! ## C6 -/

theorem laterOf_foldl_mem :
    ∀ (l : List AnalysisRow) (acc : Option AnalysisRow) (r : AnalysisRow),
      l.foldl laterOf acc = some r → acc = some r ∨ r ∈ l := by
  intro l
  induction l with
  | nil => intro acc r h; exact Or.inl h
  | cons q l ih =>
    intro acc r h
    rcases ih (laterOf acc q) r h with h2 | h2
    · cases acc with
      | none =>
        simp only [laterOf, Option.some.injEq] at h2
        exact Or.inr (h2 ▸ List.mem_cons_self q l)
      | some b =>
        by_cases hlt : b.created_at < q.created_at
        · simp only [laterOf, hlt, if_pos, Option.some.injEq] at h2
          exact Or.inr (h2 ▸ List.mem_cons_self q l)
        · simp only [laterOf, hlt, if_neg, if_false] at h2
          exact Or.inl h2
    · exact Or.inr (List.mem_cons_of_mem q h2)

theorem laterOf_foldl_ge :
    ∀ (l : List AnalysisRow) (acc : Option AnalysisRow) (r : AnalysisRow),
      l.foldl laterOf acc = some r →
      (∀ b, acc = some b → b.created_at ≤ r.created_at) ∧
      (∀ q ∈ l, q.created_at ≤ r.created_at) := by
  intro l
  induction l with
  | nil =>
    intro acc r h
    refine ⟨fun b hb => ?_, fun q hq => absurd hq (List.not_mem_nil q)⟩
    rw [hb] at h
    injection h with h2
    exact h2 ▸ Nat.le_refl _
  | cons q l ih =>
    intro acc r h
    obtain ⟨hacc, hmem⟩ := ih (laterOf acc q) r h
    have hq : q.created_at ≤ r.created_at := by
      cases acc with
      | none => exact hacc q rfl
      | some b =>
        by_cases hlt : b.created_at < q.created_at
        · exact hacc q (by simp [laterOf, hlt])
        · exact Nat.le_trans (Nat.le_of_not_lt hlt) (hacc b (by simp [laterOf, hlt]))
    refine ⟨fun b hb => ?_, fun p hp => ?_⟩
    · subst hb
      by_cases hlt : b.created_at < q.created_at
      · exact Nat.le_trans (Nat.le_of_lt hlt) hq
      · exact hacc b (by simp [laterOf, hlt])
    · rcases List.mem_cons.mp hp with hp | hp
      · exact hp ▸ hq
      · exact hmem p hp

theorem laterOf_foldl_append_max (l : List AnalysisRow) (m : AnalysisRow)
    (hlt : ∀ q ∈ l, q.created_at < m.created_at) :
    (l ++ [m]).foldl laterOf Option.none = some m := by
  rw [List.foldl_append]
  cases hacc : l.foldl laterOf Option.none with
  | none => rfl
  | some b =>
    have hb : b ∈ l := by
      rcases laterOf_foldl_mem l Option.none b hacc with h | h
      · exact absurd h (by simp)
      · exact h
    simp [laterOf, hlt b hb]

/-- C6: inserting then reading back by filename returns a record whose
analysis text equals the input exactly, provided the insert succeeded and its
timestamp is fresher than every earlier record of that filename; and
`get_analysis_by_filename` always selects a record of maximal creation time
among the rows with that filename. -/
theorem c6_roundtrip_text_latest (db : DB) (t : Nat) (fn txt : String)
    (vc fh : Option String) (md : Option (List (PyVal × PyVal))) (db2 : DB) (did : Nat)
    (hins : insert_analysis db t fn txt vc fh md = (db2, Except.ok did))
    (hfresh : ∀ r ∈ db.analyses, r.filename = fn → r.created_at < t) :
    (∃ r, get_analysis_by_filename db2 fn = some r ∧ r.analysis_result = txt ∧
      r.filename = fn ∧ r.created_at = t) ∧
    (∀ (db0 : DB) (fn0 : String) (r : AnalysisRow),
      get_analysis_by_filename db0 fn0 = some r →
      r.filename = fn0 ∧
        ∀ q ∈ db0.analyses, q.filename = fn0 → q.created_at ≤ r.created_at) := by
  constructor
  · obtain ⟨-, -, hrows, -⟩ := insert_analysis_ok_inv db t fn txt vc fh md db2 did hins
    refine ⟨⟨db.nextAnalysisId, fn, vc, txt, fh, "Finish", t, t⟩, ?_, rfl, rfl, rfl⟩
    rw [get_analysis_by_filename, hrows, List.filter_append]
    have hone : List.filter (fun r => r.filename == fn)
        [({ id := db.nextAnalysisId, filename := fn, vendor_code := vc,
            analysis_result := txt, file_hash := fh, status := "Finish",
            created_at := t, updated_at := t } : AnalysisRow)] =
        [⟨db.nextAnalysisId, fn, vc, txt, fh, "Finish", t, t⟩] := by
      simp
    rw [hone]
    apply laterOf_foldl_append_max
    intro q hq
    rw [List.mem_filter] at hq
    exact hfresh q hq.1 (by simpa using hq.2)
  · intro db0 fn0 r h
    rw [get_analysis_by_filename] at h
    constructor
    · rcases laterOf_foldl_mem _ _ _ h with h2 | h2
      · exact absurd h2 (by simp)
      · simpa using (List.mem_filter.mp h2).2
    · intro q hq hqfn
      exact (laterOf_foldl_ge _ _ _ h).2 q (List.mem_filter.mpr ⟨hq, by simp [hqfn]⟩)

/-- C6 witness: insert into `dbOne` (whose only `b.pdf`-free rows are older)
and read the text back. -/
theorem c6_roundtrip_witness :
    (insert_analysis dbOne 9 "b.pdf" "fresh text" Option.none Option.none Option.none =
      (⟨[⟨1, "a.pdf", some "V1", "old text", some "h", "Finish", 3, 3⟩,
         ⟨2, "b.pdf", Option.none, "fresh text", Option.none, "Finish", 9, 9⟩],
        [⟨1, 1, "k0", "v0"⟩], [], 3, 2, 1⟩, Except.ok 2)) ∧
    (∀ r ∈ dbOne.analyses, r.filename = "b.pdf" → r.created_at < 9) ∧
    ∃ r, get_analysis_by_filename
        ⟨[⟨1, "a.pdf", some "V1", "old text", some "h", "Finish", 3, 3⟩,
          ⟨2, "b.pdf", Option.none, "fresh text", Option.none, "Finish", 9, 9⟩],
         [⟨1, 1, "k0", "v0"⟩], [], 3, 2, 1⟩ "b.pdf" = some r ∧
      r.analysis_result = "fresh text" ∧ r.filename = "b.pdf" ∧ r.created_at = 9 :=
  ⟨rfl, by decide,
    (c6_roundtrip_text_latest dbOne 9 "b.pdf" "fresh text" Option.none Option.none
      Option.none _ 2 rfl (by decide)).1⟩

/-! ## C7 -/

/-- C7: the checklist step applies the same fenced-block extraction and
quote-normalization policy as the tag step, and whenever the parse fails or
does not yield an array the checklist is empty while the run still completes
(no pipeline failure). -/
theorem c7_checklist_empty_on_failure (raw : String) :
    (checkpointCandidate raw = tagCandidate raw) ∧
    (pyLoads (normalizeQuotes (checkpointCandidate raw)) = Option.none →
      parseCheckpointsStep raw = []) ∧
    (∀ v, pyLoads (normalizeQuotes (checkpointCandidate raw)) = some v →
      (∀ xs, v ≠ PyVal.list xs) → parseCheckpointsStep raw = []) ∧
    (∀ (db : DB) (t : Nat) (fn : String) (o : RunOracle) (imgs : List String)
      (vr ares traw : String) (m : List (PyVal × PyVal)),
      o.raster = Except.ok imgs → o.vendorResp = Except.ok vr →
      o.analysisResp = Except.ok ares → o.tagResp = Except.ok traw →
      parseTagsStep traw = Except.ok m → o.checkpointResp = Except.ok raw →
      (runPipeline db t fn o).isSome) := by
  refine ⟨rfl, ?_, ?_, ?_⟩
  · intro h
    simp [parseCheckpointsStep, h]
  · intro v hv hne
    cases v <;> simp [parseCheckpointsStep, hv]
    case list xs => exact absurd rfl (hne xs)
  · intro db t fn o imgs vr ares traw m h1 h2 h3 h4 h5 h6
    simp [runPipeline, h1, h2, h3, h4, h5, h6]

/-- C7 witness: an unparsable checklist response yields the empty checklist
and the run (under `oracleA`, whose checklist response it is) completes. -/
theorem c7_checklist_empty_witness :
    pyLoads (normalizeQuotes (checkpointCandidate "no checklist here")) = Option.none ∧
    parseCheckpointsStep "no checklist here" = [] ∧
    (runPipeline dbOne 9 "b.pdf" oracleA).isSome :=
  ⟨rfl, (c7_checklist_empty_on_failure "no checklist here").2.1 rfl,
   (c7_checklist_empty_on_failure "no checklist here").2.2.2 dbOne 9 "b.pdf" oracleA
     ["img"] " V123 " "analysis body"
     "```json\n[\x7b\"Name\": \"VCC\", \"Description\": \"supply pin\"\x7d]\n```"
     [(PyVal.str "VCC", PyVal.str "supply pin")] rfl rfl rfl rfl rfl rfl⟩

/-! ## C3 -/

theorem searchFenced_none_of_no_fence :
    ∀ cs : List Char, hasFence cs = false → searchFenced cs = Option.none := by
  intro cs
  induction cs with
  | nil => intro _; rfl
  | cons c rest ih =>
    intro h
    rw [hasFence, Bool.or_eq_false_iff] at h
    rw [searchFenced]
    cases ht : ticks3 (c :: rest) with
    | some after => rw [ht] at h; simp at h
    | none => exact ih h.2

/-- C3 counterexample: the tag response parses successfully to an array whose
single entry is an object carrying both `Name` and `Description`, yet with
the list-valued `Name` the fold raises `TypeError` instead of producing the
mapping, the exception escapes the tag step, the run reverts to Ready and
never reaches checklist generation (store untouched) — against the claim that
a successful parse is folded and only parse failures are handled. -/
theorem c3_unhashable_name_counterexample :
    parseTagsStep "[\x7b\"Name\": [], \"Description\": \"d\"\x7d]" = Except.error () ∧
    (analyze_datasheet ⟨[], [], [], 1, 1, 1⟩ 0 ⟨"f.pdf", Status.ready⟩ oracleB).2.1.status =
      Status.ready ∧
    (analyze_datasheet ⟨[], [], [], 1, 1, 1⟩ 0 ⟨"f.pdf", Status.ready⟩ oracleB).1 =
      ⟨[], [], [], 1, 1, 1⟩ :=
  ⟨rfl, rfl, rfl⟩

/-- C3 amended: the extractor takes the first fenced block or, when no fence
exists, the stripped full response; the quote-normalized candidate is parsed
as JSON; a parsed array is folded entry-wise — entries that are not objects
with both `Name` and `Description` are skipped, an entry with both and a
hashable (scalar) `Name` is written into the mapping, while a list- or
dict-valued `Name` raises out of the step; on parse failure nothing is raised,
the raw candidate is stored under the sentinel key `tags_raw`, and the run
still proceeds to checklist generation. -/
theorem c3_tag_step_amended (raw : String) :
    (hasFence raw.data = false → tagCandidate raw = pyStripStr raw) ∧
    (pyLoads (normalizeQuotes (tagCandidate raw)) = Option.none →
      parseTagsStep raw =
        Except.ok [(PyVal.str "tags_raw", PyVal.str (tagCandidate raw))]) ∧
    (∀ xs, pyLoads (normalizeQuotes (tagCandidate raw)) = some (PyVal.list xs) →
      parseTagsStep raw = xs.foldlM foldTagEntry []) ∧
    (∀ (acc : List (PyVal × PyVal)) (tag : PyVal),
      (∀ kvs, tag = PyVal.dict kvs →
        strKeyLookup kvs "Name" = Option.none ∨
        strKeyLookup kvs "Description" = Option.none) →
      foldTagEntry acc tag = Except.ok acc) ∧
    (∀ (acc : List (PyVal × PyVal)) (kvs : List (PyVal × PyVal)) (nm ds : PyVal),
      strKeyLookup kvs "Name" = some nm → strKeyLookup kvs "Description" = some ds →
      pyHashable nm = true →
      foldTagEntry acc (PyVal.dict kvs) = Except.ok (dictSet acc nm ds)) ∧
    (∀ (db : DB) (t : Nat) (fn : String) (o : RunOracle) (imgs : List String)
      (vr ares craw : String),
      o.raster = Except.ok imgs → o.vendorResp = Except.ok vr →
      o.analysisResp = Except.ok ares → o.tagResp = Except.ok raw →
      pyLoads (normalizeQuotes (tagCandidate raw)) = Option.none →
      o.checkpointResp = Except.ok craw →
      (runPipeline db t fn o).isSome) := by
  refine ⟨?_, ?_, ?_, ?_, ?_, ?_⟩
  · intro h
    rw [tagCandidate, searchFenced_none_of_no_fence raw.data h]
  · intro h
    simp [parseTagsStep, h]
  · intro xs h
    simp [parseTagsStep, h]
  · intro acc tag h
    cases tag with
    | dict kvs =>
      rcases h kvs rfl with h2 | h2
      · cases hd : strKeyLookup kvs "Description" <;> simp [foldTagEntry, h2, hd]
      · cases hn : strKeyLookup kvs "Name" <;> simp [foldTagEntry, h2, hn]
    | _ => rfl
  · intro acc kvs nm ds h1 h2 h3
    simp [foldTagEntry, h1, h2, h3]
  · intro db t fn o imgs vr ares craw h1 h2 h3 h4 h5 h6
    have hts : parseTagsStep raw =
        Except.ok [(PyVal.str "tags_raw", PyVal.str (tagCandidate raw))] := by
      simp [parseTagsStep, h5]
    simp [runPipeline, h1, h2, h3, h4, h5, h6, hts]

/-- C3 witness: an unfenced non-JSON tag response is stored under the
sentinel key and the run completes under `oracleC`. -/
theorem c3_tag_step_witness :
    hasFence ("xyz" : String).data = false ∧
    tagCandidate "xyz" = pyStripStr "xyz" ∧
    pyLoads (normalizeQuotes (tagCandidate "xyz")) = Option.none ∧
    parseTagsStep "xyz" =
      Except.ok [(PyVal.str "tags_raw", PyVal.str (tagCandidate "xyz"))] ∧
    (runPipeline dbOne 9 "c.pdf" oracleC).isSome :=
  ⟨rfl, (c3_tag_step_amended "xyz").1 rfl, rfl, (c3_tag_step_amended "xyz").2.1 rfl,
   (c3_tag_step_amended "xyz").2.2.2.2.2 dbOne 9 "c.pdf" oracleC ["img"] "V" "body" "[]"
     rfl rfl rfl rfl rfl rfl⟩

/-! ## C9 -/

theorem find?_filter_of_imp {α : Type} (p q : α → Bool) (l : List α)
    (h : ∀ x, p x = true → q x = true) :
    (l.filter q).find? p = l.find? p := by
  induction l with
  | nil => rfl
  | cons a l ih =>
    by_cases hp : p a = true
    · rw [List.filter_cons, h a hp]
      simp [List.find?_cons_of_pos, hp]
    · cases hq : q a with
      | true =>
        rw [List.filter_cons, hq]
        simp only [if_true]
        rw [List.find?_cons_of_neg _ (by simp [hp]), List.find?_cons_of_neg _ (by simp [hp])]
        exact ih
      | false =>
        rw [List.filter_cons, hq]
        simp only [Bool.false_eq_true, if_false]
        rw [List.find?_cons_of_neg _ (by simp [hp])]
        exact ih

/-- After one `INSERT OR REPLACE` of key `k` for record `did`, that slot
holds exactly the new value. -/
theorem findMetaRow_upsert_self (rows : List MetadataRow) (nid did : Nat) (k s : String) :
    findMetaRow ((rows.filter (fun q => !(q.datasheet_id == did && q.key == k))) ++
      [⟨nid, did, k, s⟩]) did k = some s := by
  rw [findMetaRow, List.find?_append]
  have hnone : (rows.filter (fun q => !(q.datasheet_id == did && q.key == k))).find?
      (fun r => r.datasheet_id == did && r.key == k) = Option.none := by
    rw [List.find?_eq_none]
    intro x hx
    have hq := (List.mem_filter.mp hx).2
    intro hcon
    rw [hcon] at hq
    simp at hq
  rw [hnone]
  simp

/-- One `INSERT OR REPLACE` of key `k` for record `did` leaves every other
(record, key) slot unchanged. -/
theorem findMetaRow_upsert_other (rows : List MetadataRow) (nid did : Nat)
    (k s : String) (did2 : Nat) (k2 : String)
    (hne : ¬(did2 = did ∧ k2 = k)) :
    findMetaRow ((rows.filter (fun q => !(q.datasheet_id == did && q.key == k))) ++
      [⟨nid, did, k, s⟩]) did2 k2 = findMetaRow rows did2 k2 := by
  rw [findMetaRow, List.find?_append, find?_filter_of_imp]
  · cases hfind : rows.find? (fun r => r.datasheet_id == did2 && r.key == k2) with
    | some r => simp [findMetaRow, hfind]
    | none =>
      have hnew : ((⟨nid, did, k, s⟩ : MetadataRow).datasheet_id == did2 &&
          (⟨nid, did, k, s⟩ : MetadataRow).key == k2) = false := by
        by_cases h1 : did = did2
        · by_cases h2 : k = k2
          · exact absurd ⟨h1.symm, h2.symm⟩ hne
          · simp [h2]
        · simp [h1]
      rw [List.find?_cons_of_neg _ (by simp [hnew])]
      simp [findMetaRow, hfind]
  · intro x hx
    simp only [Bool.and_eq_true, beq_iff_eq] at hx
    by_cases hdd : x.datasheet_id = did
    · have hdid2 : did2 = did := hx.1.symm.trans hdd
      have hk2k : k2 ≠ k := fun h => hne ⟨hdid2, h⟩
      have hxk : x.key ≠ k := hx.2 ▸ hk2k
      simp [hxk]
    · simp [hdd]

/-- Behaviour of the `INSERT OR REPLACE` loop of `update_analysis` on
string-keyed serializable metadata with distinct keys: it succeeds, each
supplied key ends up holding its freshly serialized value, unsupplied keys of
the record are untouched, and other records are untouched. -/
theorem upsertMetaLoop_spec :
    ∀ (md : List (String × PyVal)) (rows : List MetadataRow) (nid did : Nat),
      (∀ p ∈ md, ∃ s, serializeValue p.2 = Except.ok s) →
      (md.map Prod.fst).Nodup →
      ∃ rows2 nid2,
        upsertMetaLoop rows nid did (md.map (fun p => (PyVal.str p.1, p.2))) =
          Except.ok (rows2, nid2) ∧
        (∀ k v, (k, v) ∈ md → ∀ s, serializeValue v = Except.ok s →
          findMetaRow rows2 did k = some s) ∧
        (∀ k, k ∉ md.map Prod.fst → findMetaRow rows2 did k = findMetaRow rows did k) ∧
        (∀ did2 k, did2 ≠ did → findMetaRow rows2 did2 k = findMetaRow rows did2 k) := by
  intro md
  induction md with
  | nil =>
    intro rows nid did _ _
    exact ⟨rows, nid, rfl, fun k v hkv => absurd hkv (List.not_mem_nil _),
      fun k _ => rfl, fun did2 k _ => rfl⟩
  | cons p md ih =>
    obtain ⟨k, v⟩ := p
    intro rows nid did hser hnd
    rw [List.map_cons] at hnd
    obtain ⟨s, hs⟩ := hser (k, v) (List.mem_cons_self _ _)
    have hk_not : k ∉ md.map Prod.fst := (List.nodup_cons.mp hnd).1
    have hnd2 : (md.map Prod.fst).Nodup := (List.nodup_cons.mp hnd).2
    obtain ⟨rows2, nid2, hloop, hb, hc, hd⟩ :=
      ih ((rows.filter (fun q => !(q.datasheet_id == did && q.key == k))) ++
          [⟨nid, did, k, s⟩]) (nid + 1) did
        (fun q hq => hser q (List.mem_cons_of_mem _ hq)) hnd2
    refine ⟨rows2, nid2, ?_, ?_, ?_, ?_⟩
    · simp only [List.map_cons, upsertMetaLoop, hs, bindKey, except_bind_ok]
      exact hloop
    · intro k2 v2 hkv s2 hs2
      rcases List.mem_cons.mp hkv with heq | htail
      · have hk2 : k2 = k := congrArg Prod.fst heq
        have hv2 : v2 = v := congrArg Prod.snd heq
        subst hk2
        subst hv2
        rw [hs] at hs2
        injection hs2 with hs2
        subst hs2
        rw [hc k2 hk_not]
        exact findMetaRow_upsert_self rows nid did _ _
      · exact hb k2 v2 htail s2 hs2
    · intro k2 hk2
      have hne : k2 ≠ k := fun h => hk2 (by simp [h])
      have htail : k2 ∉ md.map Prod.fst := fun h => hk2 (List.mem_cons_of_mem _ h)
      rw [hc k2 htail]
      exact findMetaRow_upsert_other rows nid did k s did k2 (fun hcon => hne hcon.2)
    · intro did2 k2 hdid
      rw [hd did2 k2 hdid]
      exact findMetaRow_upsert_other rows nid did k s did2 k2 (fun hcon => hdid hcon.1)

/-- C9: `update_analysis` changes only the supplied fields — filename, hash,
status and creation time always keep their previous values, unsupplied text /
vendor code keep theirs, the update timestamp is touched — and each supplied
metadata key is upserted individually: it ends up holding the new value while
every other key of the record and every other record are untouched. -/
theorem c9_partial_update (db : DB) (t : Nat) (aid : Nat) (ar vc : Option String)
    (md : List (String × PyVal))
    (hser : ∀ p ∈ md, ∃ s, serializeValue p.2 = Except.ok s)
    (hnd : (md.map Prod.fst).Nodup) :
    ∃ db2, update_analysis db t aid ar vc
        (some (md.map (fun p => (PyVal.str p.1, p.2)))) = (db2, Except.ok ()) ∧
      (∀ r ∈ db.analyses, r.id ≠ aid → r ∈ db2.analyses) ∧
      (∀ r ∈ db.analyses, r.id = aid →
        (⟨r.id, r.filename,
          (match vc with | some v => some v | Option.none => r.vendor_code),
          (match ar with | some a => a | Option.none => r.analysis_result),
          r.file_hash, r.status, r.created_at, t⟩ : AnalysisRow) ∈ db2.analyses) ∧
      (∀ k v, (k, v) ∈ md → ∀ s, serializeValue v = Except.ok s →
        storedMeta db2 aid k = some s) ∧
      (∀ k, k ∉ md.map Prod.fst → storedMeta db2 aid k = storedMeta db aid k) ∧
      (∀ did2 k, did2 ≠ aid → storedMeta db2 did2 k = storedMeta db did2 k) := by
  obtain ⟨rows2, nid2, hloop, hb, hc, hd⟩ :=
    upsertMetaLoop_spec md db.metaRows db.nextMetaId aid hser hnd
  refine ⟨⟨db.analyses.map (updateRowFields aid ar vc t), rows2, db.checkpoints,
    db.nextAnalysisId, nid2, db.nextCheckpointId⟩, ?_, ?_, ?_, hb, hc, hd⟩
  · simp only [update_analysis, mdList, hloop]
  · intro r hr hne
    have h2 : updateRowFields aid ar vc t r = r := by
      simp [updateRowFields, hne]
    exact h2 ▸ List.mem_map_of_mem _ hr
  · intro r hr heq
    have h2 : updateRowFields aid ar vc t r =
        ⟨r.id, r.filename,
          (match vc with | some v => some v | Option.none => r.vendor_code),
          (match ar with | some a => a | Option.none => r.analysis_result),
          r.file_hash, r.status, r.created_at, t⟩ := by
      simp [updateRowFields, heq]
    exact h2 ▸ List.mem_map_of_mem _ hr

/-- C9 witness: update record 1 of `dbOne`, supplying new text and two
metadata keys (one replacing the existing `k0`). -/
theorem c9_partial_update_witness :
    (∀ p ∈ [(("k0" : String), PyVal.str "v1"), ("k2", PyVal.int 3)],
      ∃ s, serializeValue p.2 = Except.ok s) ∧
    (([(("k0" : String), PyVal.str "v1"), ("k2", PyVal.int 3)].map Prod.fst).Nodup) ∧
    ∃ db2, update_analysis dbOne 11 1 (some "new text") Option.none
        (some ([(("k0" : String), PyVal.str "v1"), ("k2", PyVal.int 3)].map
          (fun p => (PyVal.str p.1, p.2)))) = (db2, Except.ok ()) ∧
      (∀ r ∈ dbOne.analyses, r.id ≠ 1 → r ∈ db2.analyses) ∧
      (∀ r ∈ dbOne.analyses, r.id = 1 →
        (⟨r.id, r.filename,
          (match (Option.none : Option String) with
            | some v => some v | Option.none => r.vendor_code),
          (match (some "new text" : Option String) with
            | some a => a | Option.none => r.analysis_result),
          r.file_hash, r.status, r.created_at, 11⟩ : AnalysisRow) ∈ db2.analyses) ∧
      (∀ k v, (k, v) ∈ [(("k0" : String), PyVal.str "v1"), ("k2", PyVal.int 3)] →
        ∀ s, serializeValue v = Except.ok s → storedMeta db2 1 k = some s) ∧
      (∀ k, k ∉ [(("k0" : String), PyVal.str "v1"), ("k2", PyVal.int 3)].map Prod.fst →
        storedMeta db2 1 k = storedMeta dbOne 1 k) ∧
      (∀ did2 k, did2 ≠ 1 → storedMeta db2 did2 k = storedMeta dbOne did2 k) :=
  ⟨by
    intro p hp
    simp only [List.mem_cons, List.not_mem_nil, or_false] at hp
    rcases hp with rfl | rfl
    · exact ⟨"v1", rfl⟩
    · exact ⟨"3", rfl⟩,
   by decide,
   c9_partial_update dbOne 11 1 (some "new text") Option.none
     [(("k0" : String), PyVal.str "v1"), ("k2", PyVal.int 3)]
     (by
       intro p hp
       simp only [List.mem_cons, List.not_mem_nil, or_false] at hp
       rcases hp with rfl | rfl
       · exact ⟨"v1", rfl⟩
       · exact ⟨"3", rfl⟩)
     (by decide)⟩

end DatasheetAnalyze
